import Mathlib

/-!
# Verification of the Sentinel grid-navigation planner and executor

This file is a shallow embedding, in Lean 4, of the navigation core of the
Sentinel repository:

* `nav_astar.py` — grid indexing (`make_key`, `normalize_yaw`,
  `build_node_lookup`, `nearest_key`, `build_adjacency`, `movement_cost`),
  the heading-aware A* planner (`astar_actions`), the rotation decomposer
  (`_rotation_actions`), the waypoint-to-action converter
  (`_path_to_actions`) and the orthogonal Jump Point Search planner
  (`jps_actions` with `_is_walkable`, `_forced_neighbor_exists`, `_jump`,
  `_pruned_directions`, `_reconstruct_path`).
* `models/eval/eval_llm_astar.py` — the `GotoLocation` executor
  (`_execute_goto`), the final-orientation alignment (`_turn_actions`) and
  the visibility recovery scan (`_adjust_horizon_for_visibility`).

Modelling conventions:

* Python floats are embedded as exact rationals (`ℚ`); `round(x, 2)` is
  embedded as round-half-to-even on rationals, matching Python's documented
  banker's rounding.
* The float priority `f = g + heuristic(key)` of an A* open-list entry,
  where the heuristic is `hypot(dx, dz) / step`, is represented exactly as
  the pair `(g, 16*(dx^2+dz^2))` denoting the real number `g + √(16(dx²+dz²))`;
  comparisons of such numbers are decided by exact rational arithmetic
  (`sqrtAddLe`), which is proved equivalent to the real-number comparison.
* Python dictionaries are embedded as association lists in insertion order
  (`upsert` keeps the position of an existing key and replaces its value,
  like `dict.__setitem__`); `min(...)` over a dictionary returns the first
  minimizer in iteration order, as CPython does.
* `while` loops and recursions are embedded with an explicit fuel counter;
  a distinguished `fuel` error marks the (proved unreachable under the
  stated hypotheses) case of fuel exhaustion.
* Python exceptions are embedded as `Except` errors carrying the raised
  message (or a constructor naming it); returning normally is `Except.ok`.
* The stepping environment and the inherited `EvalLLM.execute_action` are
  external to the two embedded files; they are modelled abstractly as a
  state type `σ` with a primitive-step function and metadata accessors,
  following the environment contract of the specification (§6).
-/

namespace Sentinel

/-- Decidable equality of `Except` results, used to evaluate planner runs
on concrete inputs. -/
instance exceptDecEq {ε α : Type} [DecidableEq ε] [DecidableEq α] :
    DecidableEq (Except ε α) := fun x y =>
  match x, y with
  | .error e, .error f =>
    if h : e = f then .isTrue (by rw [h]) else .isFalse (by simp [h])
  | .error _, .ok _ => .isFalse (by simp)
  | .ok _, .error _ => .isFalse (by simp)
  | .ok a, .ok b =>
    if h : a = b then .isTrue (by rw [h]) else .isFalse (by simp [h])

/-- The motion primitives issued by the planners and the executor
(`"MoveAhead"`, `"RotateLeft"`, `"RotateRight"`, `"LookUp"`, `"LookDown"`
in the Python source). -/
inductive Act : Type where
  | MoveAhead : Act
  | RotateLeft : Act
  | RotateRight : Act
  | LookUp : Act
  | LookDown : Act
deriving DecidableEq, Repr

/-- A reachable-position record; only the horizontal coordinates `x` and `z`
are ever read by the navigation code (`y` is never used), so a position is
embedded as the pair of them. -/
structure Pos : Type where
  x : ℚ
  z : ℚ
deriving DecidableEq, Repr

/-- A quantized grid key: `PositionKey = Tuple[float, float]` in the source. -/
abbrev Key : Type := ℚ × ℚ

/-- `STEP_SIZE = 0.25`. -/
def STEP : ℚ := 1/4

/-- Round-half-to-even on rationals: the behaviour of Python's `round`
on exact values (banker's rounding). -/
def roundHE (q : ℚ) : ℤ :=
  let f : ℤ := ⌊q⌋
  let r : ℚ := q - f
  if r < 1/2 then f
  else if 1/2 < r then f + 1
  else if f % 2 = 0 then f else f + 1

/-- `round(q, 2)`: round to two decimal places (`PRECISION = 2`). -/
def round2 (q : ℚ) : ℚ := (roundHE (q * 100) : ℚ) / 100

/-- `make_key(x, z)`: quantize world coordinates to a grid key. -/
def make_key (x z : ℚ) : Key := (round2 x, round2 z)

/-- `normalize_yaw(yaw)`: snap an arbitrary yaw to the nearest 90-degree
increment, `int((floor((yaw + 45)/90) * 90) % 360)`. -/
def normalize_yaw (yaw : ℚ) : ℤ := (⌊(yaw + 45) / 90⌋ * 90) % 360

/-- `CARDINAL_DIRECTIONS[yaw]`: the step offset of a cardinal heading;
`none` models the `KeyError` on a non-cardinal heading. -/
def cardDir (yaw : ℤ) : Option (ℚ × ℚ) :=
  if yaw = 0 then some (0, STEP)
  else if yaw = 90 then some (STEP, 0)
  else if yaw = 180 then some (0, -STEP)
  else if yaw = 270 then some (-STEP, 0)
  else none

/-- `CARDINAL_DIRECTIONS.values()` in dictionary (insertion) order. -/
def cardDirList : List (ℚ × ℚ) := [(0, STEP), (STEP, 0), (0, -STEP), (-STEP, 0)]

/-- `DIR_TO_YAW[unit_dir]`; `none` models the `KeyError` on a non-unit pair. -/
def dirToYaw (d : ℤ × ℤ) : Option ℤ :=
  if d = (0, 1) then some 0
  else if d = (1, 0) then some 90
  else if d = (0, -1) then some 180
  else if d = (-1, 0) then some 270
  else none

/-! ## Association lists: the embedding of Python dictionaries -/

/-- `d[k] = v` on a Python dictionary: replace the value in place if the key
exists (keeping its iteration position), otherwise append. -/
def upsert {α β : Type} [DecidableEq α] : List (α × β) → α → β → List (α × β)
  | [], k, v => [(k, v)]
  | (k', v') :: rest, k, v =>
    if k' = k then (k, v) :: rest else (k', v') :: upsert rest k v

/-- `d.get(k)` on a Python dictionary. -/
def alookup {α β : Type} [DecidableEq α] : List (α × β) → α → Option β
  | [], _ => none
  | (k', v) :: rest, k => if k' = k then some v else alookup rest k

/-- The node table: a dictionary from keys to position records, in
insertion order. -/
abbrev Table : Type := List (Key × Pos)

/-- The keys of a table in iteration order. -/
def keysOf (t : Table) : List Key := t.map Prod.fst

/-- `nodes[k]` where the key is known to be present; the default is junk
for absent keys (the Python code would raise `KeyError`). -/
def getPos (t : Table) (k : Key) : Pos := (alookup t k).getD ⟨0, 0⟩

/-- `build_node_lookup(positions)`: map each position to its quantized key;
later entries overwrite earlier ones. -/
def build_node_lookup (positions : List Pos) : Table :=
  positions.foldl (fun t p => upsert t (make_key p.x p.z) p) []

/-- The squared horizontal distance from the node stored at `k` to `p`:
the `key=` function of the `min` call in `nearest_key`. -/
def sqdTo (t : Table) (p : Pos) (k : Key) : ℚ :=
  ((getPos t k).x - p.x) ^ 2 + ((getPos t k).z - p.z) ^ 2

/-- `min(iterable, key=f)`: scan keeping the current element unless a
strictly smaller one appears, so the first minimizer wins. -/
def selectMinBy (f : Key → ℚ) : Key → List Key → Key
  | best, [] => best
  | best, k :: rest =>
    if f k < f best then selectMinBy f k rest else selectMinBy f best rest

/-- `nearest_key(nodes, position)`: the quantized key itself when present,
otherwise the first key (in table iteration order) minimizing the squared
horizontal distance; `none` models the `ValueError` of `min` on an empty
table. -/
def nearest_key (t : Table) (p : Pos) : Option Key :=
  let k := make_key p.x p.z
  if k ∈ keysOf t then some k
  else
    match keysOf t with
    | [] => none
    | k₀ :: rest => some (selectMinBy (sqdTo t p) k₀ rest)

/-- The adjacency row of one node: neighbors in the four cardinal offsets,
in `CARDINAL_DIRECTIONS` iteration order, kept only when present in the
table. -/
def adjRow (t : Table) (p : Pos) : List Key :=
  cardDirList.filterMap fun d =>
    let nk := make_key (p.x + d.1) (p.z + d.2)
    if nk ∈ keysOf t then some nk else none

/-- `build_adjacency(nodes)`: the cardinal-adjacency dictionary over the
reachable grid, in table iteration order. -/
def build_adjacency (t : Table) : List (Key × List Key) :=
  t.map fun e => (e.1, adjRow t e.2)

/-- The embedded adjacency list of a key (`adjacency[k]`, defaulting to no
neighbors where Python would raise `KeyError`). -/
def adjOf (adj : List (Key × List Key)) (k : Key) : List Key :=
  (alookup adj k).getD []

/-- `movement_cost(nodes, a, b)`: grid steps between two nodes. -/
def movement_cost (t : Table) (a b : Key) : ℚ :=
  (|(getPos t a).x - (getPos t b).x| + |(getPos t a).z - (getPos t b).z|) / STEP

/-! ## Rotation decomposition -/

/-- `_rotation_actions(current_yaw, target_yaw)`: decompose a heading delta
into turn primitives with the fixed tie-break (two `RotateRight` at 180,
one `RotateLeft` at 270). -/
def rotation_actions (cur target : ℤ) : List Act :=
  let diff := (target - cur) % 360
  if diff = 0 then []
  else if diff = 90 then [.RotateRight]
  else if diff = 180 then [.RotateRight, .RotateRight]
  else if diff = 270 then [.RotateLeft]
  else if diff < 180 then List.replicate (roundHE ((diff : ℚ) / 90)).toNat .RotateRight
  else List.replicate (roundHE ((360 - (diff : ℚ)) / 90)).toNat .RotateLeft

/-- `EvalLLMAstar._turn_actions(current_yaw, desired_yaw)`: the executor's
final-orientation alignment; `none` for a missing desired yaw. -/
def turn_actions (currentYaw : ℚ) (desiredYaw : Option ℚ) : List Act :=
  match desiredYaw with
  | none => []
  | some d =>
    let current := normalize_yaw currentYaw
    let desired := normalize_yaw d
    let diff := (desired - current) % 360
    if diff = 0 then []
    else if diff = 90 then [.RotateRight]
    else if diff = 180 then [.RotateRight, .RotateRight]
    else if diff = 270 then [.RotateLeft]
    else if diff < 180 then List.replicate (roundHE ((diff : ℚ) / 90)).toNat .RotateRight
    else List.replicate (roundHE ((360 - (diff : ℚ)) / 90)).toNat .RotateLeft

/-! ## Execution semantics of plans

A search/execution state is a key paired with a yaw.  A `MoveAhead` follows
the source's move rule: the forward neighbor key is computed by `make_key`
from the stored position of the current node, and the move is legal exactly
when that key is listed in the adjacency row of the current key. -/

/-- A planner state: `(PositionKey, Heading)`. -/
abbrev St : Type := Key × ℤ

/-- One primitive applied to a state; `none` when the primitive cannot be
executed (blocked move, non-cardinal heading, or a look action, which does
not change the grid state). -/
def stepSt (t : Table) (adj : List (Key × List Key)) : St → Act → Option St
  | (k, y), .RotateLeft => some (k, (y - 90) % 360)
  | (k, y), .RotateRight => some (k, (y + 90) % 360)
  | (k, y), .MoveAhead =>
    match cardDir y with
    | none => none
    | some d =>
      let p := getPos t k
      let nk := make_key (p.x + d.1) (p.z + d.2)
      if nk ∈ adjOf adj k then some (nk, y) else none
  | _, .LookUp => none
  | _, .LookDown => none

/-- Execute a plan from a state. -/
def execPlan (t : Table) (adj : List (Key × List Key)) : St → List Act → Option St
  | s, [] => some s
  | s, a :: rest =>
    match stepSt t adj s a with
    | none => none
    | some s' => execPlan t adj s' rest

/-- The plan `p`, run from state `s`, ends at the goal key (heading at
arrival unconstrained). -/
def ReachesGoal (t : Table) (adj : List (Key × List Key)) (s : St) (goal : Key)
    (p : List Act) : Prop :=
  ∃ y, execPlan t adj s p = some (goal, y)

/-! ## Exact comparison of `a + √b` priorities

The A* open-list priority `f = g + hypot(dx, dz)/step` is the real number
`g + √(16(dx²+dz²))`.  `sqrtAddLe a₁ b₁ a₂ b₂` decides
`a₁ + √b₁ ≤ a₂ + √b₂` (for nonnegative radicands) by rational
arithmetic. -/

/-- Decide `a₁ + √b₁ ≤ a₂ + √b₂` for `0 ≤ b₁`, `0 ≤ b₂`. -/
def sqrtAddLe (a₁ b₁ a₂ b₂ : ℚ) : Bool :=
  let d := a₂ - a₁
  if 0 ≤ d then
    let e := b₁ - d ^ 2 - b₂
    decide (e ≤ 0) || decide (e ^ 2 ≤ 4 * d ^ 2 * b₂)
  else
    let e := b₂ - b₁ - d ^ 2
    decide (0 ≤ e) && decide (4 * d ^ 2 * b₁ ≤ e ^ 2)

/-! ## The A* planner (`astar_actions`)

The Python open list is a `heapq` of tuples `(f, g, counter, state)`;
`heappop` returns the lexicographically smallest tuple.  Since counters are
unique, the `state` component never takes part in a comparison, so the heap
order is: `f` first, then `g`, then the insertion counter. -/

/-- One open-list entry `(f, g, counter, state)`; the float `f` is carried
exactly as `fa + √fb` with `fa = g` and `fb` the squared heuristic. -/
structure AEntry : Type where
  fa : ℚ
  fb : ℚ
  g : ℚ
  c : ℕ
  st : St
deriving DecidableEq, Repr

/-- The strict heap order on entries: by `f`, then `g`, then counter
(Python tuple comparison with unique counters). -/
def entryLtB (e₁ e₂ : AEntry) : Bool :=
  if sqrtAddLe e₂.fa e₂.fb e₁.fa e₁.fb then
    -- f₂ ≤ f₁: strictly smaller only on a tie of f and a smaller tail
    sqrtAddLe e₁.fa e₁.fb e₂.fa e₂.fb &&
      (decide (e₁.g < e₂.g) || (decide (e₁.g = e₂.g) && decide (e₁.c < e₂.c)))
  else true

/-- Scan for the minimal entry (`heapq.heappop` returns the unique minimum;
on distinct counters the order is total, so the scan finds it). -/
def selMinE : AEntry → List AEntry → AEntry
  | best, [] => best
  | best, e :: rest => if entryLtB e best then selMinE e rest else selMinE best rest

/-- Pop the minimal entry off the open list. -/
def popMinE (l : List AEntry) : Option (AEntry × List AEntry) :=
  match l with
  | [] => none
  | e :: rest =>
    let m := selMinE e rest
    some (m, l.erase m)

/-- The radicand of the heuristic at `k`:
`(hypot(px−gx, pz−gz)/STEP)² = 16((px−gx)² + (pz−gz)²)`, positions read
from the node table as in the source. -/
def heurRad (t : Table) (goal : Key) (k : Key) : ℚ :=
  16 * (((getPos t k).x - (getPos t goal).x) ^ 2
       + ((getPos t k).z - (getPos t goal).z) ^ 2)

/-- The mutable search state of the A* loop: open list, `came_from`,
`g_score` and the insertion counter. -/
structure ALoopSt : Type where
  opn : List AEntry
  came : List (St × (St × Act))
  gsc : List (St × ℚ)
  ctr : ℕ
deriving Repr

/-- One relaxation (`if tentative_g < g_score.get(state, inf): ...` followed
by the push): `st'` the successor state, `act` the action, `tent` the
tentative g, `hk` the key whose heuristic prices the new entry. -/
def relaxA (t : Table) (goal : Key) (cur : St) (st' : St) (act : Act)
    (tent : ℚ) (hk : Key) (σ : ALoopSt) : ALoopSt :=
  let improves :=
    match alookup σ.gsc st' with
    | none => true
    | some g => decide (tent < g)
  if improves then
    { opn := σ.opn ++ [⟨tent, heurRad t goal hk, tent, σ.ctr, st'⟩]
      came := upsert σ.came st' (cur, act)
      gsc := upsert σ.gsc st' tent
      ctr := σ.ctr + 1 }
  else σ

/-- All three successor relaxations of one expansion, in source order:
rotate left, rotate right, move ahead. -/
def expandA (t : Table) (adj : List (Key × List Key)) (goal : Key)
    (cur : St) (curG : ℚ) (σ : ALoopSt) : ALoopSt :=
  let k := cur.1
  let y := cur.2
  let σ₁ := relaxA t goal cur (k, (y - 90) % 360) .RotateLeft (curG + 1) k σ
  let σ₂ := relaxA t goal cur (k, (y + 90) % 360) .RotateRight (curG + 1) k σ₁
  match cardDir y with
  | none => σ₂
  | some d =>
    let p := getPos t k
    let nk := make_key (p.x + d.1) (p.z + d.2)
    if nk ∈ adjOf adj k then
      relaxA t goal cur (nk, y) .MoveAhead (curG + 1) nk σ₂
    else σ₂

/-- Walk the `came_from` chain back from `s`, accumulating actions in
start-to-goal order (the Python loop appends then reverses). -/
def reconstructA (came : List (St × (St × Act))) : ℕ → St → List Act → List Act
  | 0, _, acc => acc
  | fuel + 1, s, acc =>
    match alookup came s with
    | none => acc
    | some (prev, a) => reconstructA came fuel prev (a :: acc)

/-- A raised Python exception: the planners raise `RuntimeError` (which
`_execute_goto` catches to trigger the JPS→A* fallback) and
`_path_to_actions` raises `ValueError` (which is not caught); `fuel` marks
exhaustion of the modelling fuel counter, never reached under the
hypotheses of the theorems below. -/
inductive PyErr : Type where
  | runtimeError : String → PyErr
  | valueError : String → PyErr
  | fuel : PyErr
deriving DecidableEq, Repr

/-- The A* main loop, with an explicit fuel counter standing in for the
termination of the Python `while open_heap:` loop. -/
def aloopA (t : Table) (adj : List (Key × List Key)) (goal : Key) :
    ℕ → ALoopSt → Except PyErr (List Act)
  | 0, _ => .error .fuel
  | fuel + 1, σ =>
    match popMinE σ.opn with
    | none => .error (.runtimeError "No path found to target")
    | some (e, rest) =>
      if e.st.1 = goal then
        .ok (reconstructA σ.came (σ.came.length + 1) e.st [])
      else
        aloopA t adj goal fuel (expandA t adj goal e.st e.g { σ with opn := rest })

/-- The fuel budget: an upper bound on the iteration count of the A* loop,
derived from the potential argument in the termination proof below. -/
def astarFuel (t : Table) (adj : List (Key × List Key)) : ℕ :=
  let m := 4 * (1 + (adj.map fun r => r.2.length).sum + t.length)
  (m + 2) * m + 2

/-- `astar_actions(nodes, adjacency, start_key, start_yaw, goal_key)`. -/
def astar_actions (t : Table) (adj : List (Key × List Key)) (startK : Key)
    (startYaw : ℤ) (goalK : Key) : Except PyErr (List Act) :=
  if startK = goalK then .ok []
  else
    aloopA t adj goalK (astarFuel t adj)
      { opn := [⟨0, heurRad t goalK startK, 0, 0, (startK, startYaw)⟩]
        came := []
        gsc := [((startK, startYaw), 0)]
        ctr := 1 }

/-! ## The JPS planner (`jps_actions`) -/

/-- `_is_walkable(nodes, x, z)`. -/
def is_walkable (t : Table) (x z : ℚ) : Bool := decide (make_key x z ∈ keysOf t)

/-- `_forced_neighbor_exists(nodes, key, direction)`. -/
def forced_neighbor_exists (t : Table) (k : Key) (d : ℤ × ℤ) : Bool :=
  let p := getPos t k
  let x := p.x
  let z := p.z
  if d.1 ≠ 0 then
    let upBlocked := !is_walkable t x (z + STEP)
    let downBlocked := !is_walkable t x (z - STEP)
    (upBlocked && is_walkable t (x + d.1 * STEP) (z + STEP)) ||
      (downBlocked && is_walkable t (x + d.1 * STEP) (z - STEP))
  else
    let leftBlocked := !is_walkable t (x + STEP) z
    let rightBlocked := !is_walkable t (x - STEP) z
    (leftBlocked && is_walkable t (x + STEP) (z + d.2 * STEP)) ||
      (rightBlocked && is_walkable t (x - STEP) (z + d.2 * STEP))

/-- `_jump(nodes, current, direction, goal)`: recurse along `direction`
until off the grid (`none`), the goal, or a forced neighbor.  The fuel
counter bounds the recursion depth; `jps_actions` supplies fuel exceeding
the longest possible straight chain. -/
def jump (t : Table) (goal : Key) (d : ℤ × ℤ) : ℕ → Key → Option Key
  | 0, _ => none
  | fuel + 1, cur =>
    let p := getPos t cur
    let nextX := p.x + d.1 * STEP
    let nextZ := p.z + d.2 * STEP
    let nk := make_key nextX nextZ
    if nk ∈ keysOf t then
      if nk = goal then some nk
      else if forced_neighbor_exists t nk d then some nk
      else jump t goal d fuel nk
    else none

/-- `_pruned_directions(nodes, current, parent)`. -/
def pruned_directions (t : Table) (cur : Key) (parent : Option Key) :
    List (ℤ × ℤ) :=
  let p := getPos t cur
  let x := p.x
  let z := p.z
  match parent with
  | none =>
    cardDirList.filterMap fun d =>
      if make_key (x + d.1) (z + d.2) ∈ keysOf t then
        some (roundHE (d.1 / STEP), roundHE (d.2 / STEP))
      else none
  | some pk =>
    let pp := getPos t pk
    let diffX := x - pp.x
    let diffZ := z - pp.z
    let dirX : ℤ := if |diffX| > 1/1000000 then roundHE (diffX / STEP) else 0
    let dirZ : ℤ := if |diffZ| > 1/1000000 then roundHE (diffZ / STEP) else 0
    if dirX ≠ 0 then
      (if is_walkable t (x + dirX * STEP) z then [((dirX : ℤ), (0 : ℤ))] else []) ++
      (if !is_walkable t x (z + STEP) && is_walkable t (x + dirX * STEP) (z + STEP)
        then [((0 : ℤ), (1 : ℤ))] else []) ++
      (if !is_walkable t x (z - STEP) && is_walkable t (x + dirX * STEP) (z - STEP)
        then [((0 : ℤ), (-1 : ℤ))] else [])
    else if dirZ ≠ 0 then
      (if is_walkable t x (z + dirZ * STEP) then [((0 : ℤ), (dirZ : ℤ))] else []) ++
      (if !is_walkable t (x + STEP) z && is_walkable t (x + STEP) (z + dirZ * STEP)
        then [((1 : ℤ), (0 : ℤ))] else []) ++
      (if !is_walkable t (x - STEP) z && is_walkable t (x - STEP) (z + dirZ * STEP)
        then [((-1 : ℤ), (0 : ℤ))] else [])
    else []

/-- `_reconstruct_path(parents, start, goal)`: walk parent pointers from
the goal back to the start; `none` models a missing parent (`KeyError`)
or fuel exhaustion, impossible for the maps the search builds. -/
def reconstruct_path (parents : List (Key × Key)) (start : Key) :
    ℕ → Key → List Key → Option (List Key)
  | 0, _, _ => none
  | fuel + 1, cur, acc =>
    if cur = start then some (cur :: acc)
    else
      match alookup parents cur with
      | none => none
      | some prev => reconstruct_path parents start fuel prev (cur :: acc)

/-- One segment of `_path_to_actions`: the loop body over a consecutive
waypoint pair, returning the updated yaw and the emitted actions. -/
def segment_actions (t : Table) (yaw : ℤ) (prevK nextK : Key) :
    Except PyErr (ℤ × List Act) :=
  let pn := getPos t prevK
  let nn := getPos t nextK
  let dx := nn.x - pn.x
  let dz := nn.z - pn.z
  if |dx| > 1/1000000 && |dz| > 1/1000000 then
    .error (.valueError "Diagonal movement is not supported")
  else
    let unitDir : ℤ × ℤ :=
      if |dx| > 1/1000000 then (if dx > 0 then 1 else -1, 0)
      else (0, if dz > 0 then 1 else -1)
    let steps : ℕ :=
      if |dx| > 1/1000000 then (roundHE (|dx| / STEP)).toNat
      else (roundHE (|dz| / STEP)).toNat
    match dirToYaw unitDir with
    | none => .error (.runtimeError "KeyError")
    | some targetYaw =>
      .ok (targetYaw, rotation_actions yaw targetYaw ++ List.replicate steps .MoveAhead)

/-- The fold of `segment_actions` over consecutive waypoint pairs. -/
def path_segments (t : Table) : ℤ → Key → List Key → Except PyErr (List Act)
  | _, _, [] => .ok []
  | yaw, prevK, nextK :: rest =>
    match segment_actions t yaw prevK nextK with
    | .error e => .error e
    | .ok (yaw', acts) =>
      match path_segments t yaw' nextK rest with
      | .error e => .error e
      | .ok acts' => .ok (acts ++ acts')

/-- `_path_to_actions(nodes, path, start_yaw)`. -/
def path_to_actions (t : Table) (path : List Key) (startYaw : ℤ) :
    Except PyErr (List Act) :=
  match path with
  | [] => .ok []
  | [_] => .ok []
  | k₀ :: rest => path_segments t startYaw k₀ rest

/-- A JPS open-list entry `(f, g, counter, key)`; the Manhattan heuristic
is rational, so the priority is carried directly. -/
structure JEntry : Type where
  f : ℚ
  g : ℚ
  c : ℕ
  k : Key
deriving DecidableEq, Repr

/-- Strict heap order on JPS entries: `f`, then `g`, then counter. -/
def jentryLtB (e₁ e₂ : JEntry) : Bool :=
  decide (e₁.f < e₂.f) ||
    (decide (e₁.f = e₂.f) &&
      (decide (e₁.g < e₂.g) || (decide (e₁.g = e₂.g) && decide (e₁.c < e₂.c))))

/-- Scan for the minimal JPS entry. -/
def selMinJ : JEntry → List JEntry → JEntry
  | best, [] => best
  | best, e :: rest => if jentryLtB e best then selMinJ e rest else selMinJ best rest

/-- Pop the minimal JPS entry. -/
def popMinJ (l : List JEntry) : Option (JEntry × List JEntry) :=
  match l with
  | [] => none
  | e :: rest =>
    let m := selMinJ e rest
    some (m, l.erase m)

/-- The JPS Manhattan heuristic `(|px−gx| + |pz−gz|) / STEP`. -/
def jheur (t : Table) (goal : Key) (k : Key) : ℚ :=
  (|(getPos t k).x - (getPos t goal).x| + |(getPos t k).z - (getPos t goal).z|) / STEP

/-- The mutable search state of the JPS loop. -/
structure JLoopSt : Type where
  opn : List JEntry
  parents : List (Key × Key)
  gsc : List (Key × ℚ)
  closed : List Key
  ctr : ℕ
deriving Repr

/-- The successor generation of one JPS expansion: for each pruned
direction, jump and relax (with the `tentative + 1e-9 >= g` skip). -/
def expandJ (t : Table) (goal : Key) (cur : Key) (curG : ℚ)
    (dirs : List (ℤ × ℤ)) (σ : JLoopSt) : JLoopSt :=
  dirs.foldl
    (fun σ d =>
      match jump t goal d (t.length + 1) cur with
      | none => σ
      | some jk =>
        let tent := curG + movement_cost t cur jk
        let skip :=
          match alookup σ.gsc jk with
          | none => false
          | some g => decide (tent + 1/1000000000 ≥ g)
        if skip then σ
        else
          { opn := σ.opn ++ [⟨tent + jheur t goal jk, tent, σ.ctr, jk⟩]
            parents := upsert σ.parents jk cur
            gsc := upsert σ.gsc jk tent
            closed := σ.closed
            ctr := σ.ctr + 1 })
    σ

/-- The JPS main loop with fuel. -/
def aloopJ (t : Table) (startK : Key) (startYaw : ℤ) (goal : Key) :
    ℕ → JLoopSt → Except PyErr (List Act)
  | 0, _ => .error .fuel
  | fuel + 1, σ =>
    match popMinJ σ.opn with
    | none => .error (.runtimeError "No path found to target using JPS")
    | some (e, rest) =>
      if e.k ∈ σ.closed then
        aloopJ t startK startYaw goal fuel { σ with opn := rest }
      else
        let σ₁ : JLoopSt := { σ with opn := rest, closed := σ.closed ++ [e.k] }
        if e.k = goal then
          match reconstruct_path σ₁.parents startK (σ₁.parents.length + 1) goal [] with
          | none => .error .fuel
          | some path => path_to_actions t path startYaw
        else
          let parent := alookup σ₁.parents e.k
          let dirs := pruned_directions t e.k parent
          aloopJ t startK startYaw goal fuel (expandJ t goal e.k e.g dirs σ₁)

/-- The JPS fuel budget (a generous bound; the conditional theorems below
never depend on its sufficiency). -/
def jpsFuel (t : Table) : ℕ := (4 * t.length + 2) * (4 * t.length + 2) + 2

/-- `jps_actions(nodes, start_key, start_yaw, goal_key)`. -/
def jps_actions (t : Table) (startK : Key) (startYaw : ℤ) (goalK : Key) :
    Except PyErr (List Act) :=
  if startK = goalK then .ok []
  else
    aloopJ t startK startYaw goalK (jpsFuel t)
      { opn := [⟨jheur t goalK startK, 0, 0, startK⟩]
        parents := []
        gsc := [(startK, 0)]
        closed := []
        ctr := 1 }

/-! ## The executor (`EvalLLMAstar._execute_goto` and the visibility scan)

The stepping environment and the inherited `EvalLLM.execute_action` are
external collaborators (specification §6): every primitive step returns an
observation exposing agent metadata (position, `rotation.y`, camera tilt),
per-object visibility flags, a last-action-success flag and an error
message.  They are modelled as an abstract state type `σ` with a step
function and metadata accessors; the two query actions are modelled by the
data they return. -/

/-- The agent metadata of the reachable-positions event
(`metadata['agent']`). -/
structure AgentMeta : Type where
  position : Pos
  rotationY : ℚ
deriving Repr

/-- The metadata of the `GetReachablePositions` event: the agent and
`actionReturn` (the reachable positions). -/
structure ReachMeta : Type where
  agent : AgentMeta
  positions : List Pos
deriving Repr

/-- One interactable-pose candidate: a position plus the desired yaw
(`pose['rotation']`). -/
structure IPose : Type where
  x : ℚ
  z : ℚ
  rotation : ℚ
deriving Repr

/-- The abstract environment of one `GotoLocation` request over a primitive
state type `σ`: the two query responses, the primitive stepper of the
inherited `execute_action` (success flag and next state), and metadata
accessors on states.  `reachMeta = none` models an empty-or-absent
metadata dictionary (`if not reach_meta`); a `none` element of `poses`
models a `None` candidate. -/
structure EnvModel (σ : Type) : Type where
  reachMeta : Option ReachMeta
  poses : List (Option IPose)
  stepPrim : σ → Act → Bool × σ
  visible : σ → Bool
  horizon : σ → ℚ
  agentPos : σ → Pos
  agentYaw : σ → ℚ
  errMsg : σ → String

/-- The result of `_execute_goto`: `ok` is the ordinary
`(success, event, error)` triple (the event modelled by the final state);
`error` is a raised exception. -/
inductive GotoErr : Type where
  | noInteractablePoses : GotoErr
  | planningFailed : PyErr → GotoErr
  | emptyNodeTable : GotoErr
  | lookUpFailed : GotoErr
  | lookDownFailed : GotoErr
  | horizonExhaustedHeldObjectOccluder : GotoErr
  | fuel : GotoErr
deriving DecidableEq, Repr

/-- The `LookUp` phase of `_adjust_horizon_for_visibility`
(`while current_horizon > min_horizon + 1e-3`), returning the result, the
final state and the trace of issued primitives.  `lookUpFailed` models
`raise RuntimeError('LookUp action failed during horizon adjustment')`. -/
def scanUp {σ : Type} (E : EnvModel σ) :
    ℕ → ℚ → σ → Except GotoErr Bool × σ × List Act
  | 0, _, s => (.error .fuel, s, [])
  | fuel + 1, curHor, s =>
    if curHor > -30 + 1/1000 then
      if (E.stepPrim s .LookUp).1 then
        if E.visible (E.stepPrim s .LookUp).2 then
          (.ok true, (E.stepPrim s .LookUp).2, [.LookUp])
        else
          ((scanUp E fuel (E.horizon (E.stepPrim s .LookUp).2) (E.stepPrim s .LookUp).2).1,
           (scanUp E fuel (E.horizon (E.stepPrim s .LookUp).2) (E.stepPrim s .LookUp).2).2.1,
           .LookUp ::
             (scanUp E fuel (E.horizon (E.stepPrim s .LookUp).2) (E.stepPrim s .LookUp).2).2.2)
      else (.error .lookUpFailed, (E.stepPrim s .LookUp).2, [.LookUp])
    else (.ok false, s, [])

/-- The `LookDown` phase (`while current_horizon < max_horizon - 1e-3`);
falling out of the loop raises the held-object-occluder diagnostic
(`raise RuntimeError('Horizon adjustment exceeded limits ...')`). -/
def scanDown {σ : Type} (E : EnvModel σ) :
    ℕ → ℚ → σ → Except GotoErr Bool × σ × List Act
  | 0, _, s => (.error .fuel, s, [])
  | fuel + 1, curHor, s =>
    if curHor < 90 - 1/1000 then
      if (E.stepPrim s .LookDown).1 then
        if E.visible (E.stepPrim s .LookDown).2 then
          (.ok true, (E.stepPrim s .LookDown).2, [.LookDown])
        else
          ((scanDown E fuel (E.horizon (E.stepPrim s .LookDown).2)
              (E.stepPrim s .LookDown).2).1,
           (scanDown E fuel (E.horizon (E.stepPrim s .LookDown).2)
              (E.stepPrim s .LookDown).2).2.1,
           .LookDown ::
             (scanDown E fuel (E.horizon (E.stepPrim s .LookDown).2)
                (E.stepPrim s .LookDown).2).2.2)
      else (.error .lookDownFailed, (E.stepPrim s .LookDown).2, [.LookDown])
    else (.error .horizonExhaustedHeldObjectOccluder, s, [])

/-- `_adjust_horizon_for_visibility`: immediate success when visible, then
the bounded LookUp phase toward the −30 lower bound, then the LookDown
phase toward the +90 upper bound; exhausting the upper bound always raises
the held-object-occluder diagnostic. -/
def adjust_horizon {σ : Type} (E : EnvModel σ) (fuel : ℕ) (s : σ) :
    Except GotoErr Bool × σ × List Act :=
  if E.visible s then (.ok true, s, [])
  else
    let up := scanUp E fuel (E.horizon s) s
    match up.1 with
    | .error e => (.error e, up.2.1, up.2.2)
    | .ok true => (.ok true, up.2.1, up.2.2)
    | .ok false =>
      let dn := scanDown E fuel (E.horizon up.2.1) up.2.1
      (dn.1, dn.2.1, up.2.2 ++ dn.2.2)

/-- Dispatch a list of primitives one at a time, stopping on the first
failure (`for action_name in action_names: ...; if not success: break`). -/
def runActs {σ : Type} (E : EnvModel σ) : σ → List Act → Bool × σ × List Act
  | s, [] => (true, s, [])
  | s, a :: rest =>
    let r := E.stepPrim s a
    if r.1 then
      let out := runActs E r.2 rest
      (out.1, out.2.1, a :: out.2.2)
    else (false, r.2, [a])

/-- The tail of `_execute_goto` after a successful plan execution: the
final-orientation alignment via `_turn_actions`, then the visibility check
with the recovery scan, then the `(success, event, error)` result. -/
def gotoFinish {σ : Type} (E : EnvModel σ) (pose : IPose) (fuel : ℕ) (s : σ) :
    Except GotoErr (Bool × σ × String) × List Act :=
  let turns := turn_actions (E.agentYaw s) (some pose.rotation)
  let tr := runActs E s turns
  if !tr.1 then (.ok (false, tr.2.1, E.errMsg tr.2.1), tr.2.2)
  else
    let s₁ := tr.2.1
    if E.visible s₁ then (.ok (true, s₁, ""), tr.2.2)
    else
      let sc := adjust_horizon E fuel s₁
      match sc.1 with
      | .error e => (.error e, tr.2.2 ++ sc.2.2)
      | .ok vis =>
        let s₂ := sc.2.1
        (.ok (vis, s₂, if vis then "" else E.errMsg s₂), tr.2.2 ++ sc.2.2)

/-- `_execute_goto(env, action)`: the full `GotoLocation` pipeline —
reachable-positions query, interactable-poses query, node table and
nearest-key resolution, JPS with A* fallback, plan execution, alignment
and visibility recovery.  The second component is the trace of motion
primitives sent to the environment. -/
def execute_goto {σ : Type} (E : EnvModel σ) (scanFuel : ℕ) (s₀ : σ) :
    Except GotoErr (Bool × σ × String) × List Act :=
  match E.reachMeta with
  | none => (.ok (false, s₀, "No reachable positions found"), [])
  | some rm =>
    if E.poses.isEmpty then (.error .noInteractablePoses, [])
    else
      match E.poses.head? with
      | none => (.error .noInteractablePoses, [])
      | some none => (.ok (false, s₀, "GotoLocation missing valid target"), [])
      | some (some pose) =>
        let nodes := build_node_lookup rm.positions
        match nearest_key nodes rm.agent.position,
              nearest_key nodes ⟨pose.x, pose.z⟩ with
        | none, _ => (.error .emptyNodeTable, [])
        | _, none => (.error .emptyNodeTable, [])
        | some startK, some targetK =>
          let startYaw := normalize_yaw rm.agent.rotationY
          let planned : Except PyErr (List Act) :=
            match jps_actions nodes startK startYaw targetK with
            | .ok acts => .ok acts
            | .error (.runtimeError _) =>
              astar_actions nodes (build_adjacency nodes) startK startYaw targetK
            | .error e => .error e
          match planned with
          | .error e => (.error (.planningFailed e), [])
          | .ok acts =>
            let run := runActs E s₀ acts
            if !run.1 then (.ok (false, run.2.1, E.errMsg run.2.1), run.2.2)
            else
              let fin := gotoFinish E pose scanFuel run.2.1
              (fin.1, run.2.2 ++ fin.2)

/-- Replay of the environment's post-states along a trace of primitives:
the observation after each step, in order. -/
def statesAfter {σ : Type} (E : EnvModel σ) : σ → List Act → List σ
  | _, [] => []
  | s, a :: rest => (E.stepPrim s a).2 :: statesAfter E (E.stepPrim s a).2 rest

/-- The final environment state after replaying a trace of primitives. -/
def replayEnd {σ : Type} (E : EnvModel σ) (s : σ) (acts : List Act) : σ :=
  acts.foldl (fun s a => (E.stepPrim s a).2) s

/-! ## Grid-aligned tables

The reachable positions returned by the stepping environment lie on the
physical grid: every coordinate is an integer multiple of the step size
(`gridSize = 0.25`), which is exact both in binary floating point and in
ℚ, and is a fixed point of `round(·, 2)`.  The hypotheses of the planner
theorems restrict the node table to this domain. -/

/-- `q` is an integer multiple of the step size (a quarter-integer). -/
def QuarterInt (q : ℚ) : Prop := (q * 4).den = 1

instance (q : ℚ) : Decidable (QuarterInt q) := by
  unfold QuarterInt
  infer_instance

/-- A grid-aligned node table: every entry stores a position equal to its
key, the coordinates are quarter-integers, and the keys are distinct (as
`build_node_lookup` guarantees). -/
def AlignedTable (t : Table) : Prop :=
  (∀ e ∈ t, e.2.x = e.1.1 ∧ e.2.z = e.1.2 ∧ QuarterInt e.1.1 ∧ QuarterInt e.1.2)
  ∧ (keysOf t).Nodup

instance (t : Table) : Decidable (AlignedTable t) := by
  unfold AlignedTable
  infer_instance

/-- The number of `MoveAhead` primitives of a plan. -/
def moveCount (p : List Act) : ℕ := p.count .MoveAhead

/-! ## Concrete instances used by witnesses and counterexamples -/

/-- A one-step straight corridor: two aligned nodes. -/
def tStraight : Table := build_node_lookup [⟨0, 0⟩, ⟨0, 1/4⟩]

/-- The open 2×2 aligned block. -/
def tSquare : Table := build_node_lookup [⟨0, 0⟩, ⟨1/4, 0⟩, ⟨0, 1/4⟩, ⟨1/4, 1/4⟩]

/-- Two nodes tying for the nearest-key scan, in one insertion order … -/
def tTieA : Table := [((0, 0), ⟨0, 0⟩), ((1/2, 0), ⟨1/2, 0⟩)]

/-- … and the same two nodes in the opposite insertion order. -/
def tTieB : Table := [((1/2, 0), ⟨1/2, 0⟩), ((0, 0), ⟨0, 0⟩)]

/-- Two far-apart nodes: a disconnected table on which both planners fail. -/
def tSplit : Table := build_node_lookup [⟨0, 0⟩, ⟨1, 1⟩]

/-- An aligned grid exhibiting the JPS stride defect: the bottom row
`(0,0)…(0.5,0)` ends in a hole at `(0.75,0)` before the goal `(1,0)`;
`(0.75,0.25)` creates a forced neighbor so `(0.5,0)` becomes a jump point
two cells from the start, making `_pruned_directions` emit the non-unit
direction `(2,0)` whose jump strides straight over the hole onto the
goal; the top arc makes the goal genuinely reachable. -/
def tStride : Table := build_node_lookup
  [⟨0, 0⟩, ⟨1/4, 0⟩, ⟨1/2, 0⟩, ⟨1, 0⟩, ⟨3/4, 1/4⟩, ⟨1, 1/4⟩,
   ⟨0, 1/4⟩, ⟨0, 1/2⟩, ⟨1/4, 1/2⟩, ⟨1/2, 1/2⟩, ⟨3/4, 1/2⟩]

/-- A mock environment over horizon states: `LookUp` lowers the camera
tilt by 30 degrees, `LookDown` raises it by 30, every step succeeds and
the target is never visible. -/
def mockScanEnv : EnvModel ℚ :=
  { reachMeta := none
    poses := []
    stepPrim := fun h a =>
      (true, if a = .LookUp then h - 30 else if a = .LookDown then h + 30 else h)
    visible := fun _ => false
    horizon := fun h => h
    agentPos := fun _ => ⟨0, 0⟩
    agentYaw := fun _ => 0
    errMsg := fun _ => "" }

/-- A mock environment with no reachable-position metadata. -/
def mockEmptyReachEnv : EnvModel Unit :=
  { reachMeta := none
    poses := []
    stepPrim := fun s _ => (true, s)
    visible := fun _ => false
    horizon := fun _ => 0
    agentPos := fun _ => ⟨0, 0⟩
    agentYaw := fun _ => 0
    errMsg := fun _ => "" }

/-- Reachable metadata for the mock executors: the agent stands at the
origin of `tSplit`'s grid. -/
def mockReach : ReachMeta :=
  { agent := { position := ⟨0, 0⟩, rotationY := 0 }
    positions := [⟨0, 0⟩, ⟨1, 1⟩] }

/-- A mock environment whose candidate-pose list is empty. -/
def mockNoPosesEnv : EnvModel Unit :=
  { mockEmptyReachEnv with reachMeta := some mockReach, poses := [] }

/-- A mock environment whose first candidate pose is `None`. -/
def mockNonePoseEnv : EnvModel Unit :=
  { mockEmptyReachEnv with reachMeta := some mockReach, poses := [none] }

/-- A mock environment over the disconnected grid `tSplit`: both planners
fail, so the `GotoLocation` request must raise. -/
def mockSplitEnv : EnvModel Unit :=
  { mockEmptyReachEnv with
    reachMeta := some mockReach
    poses := [some ⟨1, 1, 0⟩] }

/-- The real-valued lexicographic order that the Python heap tuples
`(f, g, counter, state)` realize: `f` (a real number `fa + √fb`) first,
then `g`, then the insertion counter.  The state never takes part because
counters are unique. -/
def EntLt (e₁ e₂ : AEntry) : Prop :=
  (e₁.fa : ℝ) + Real.sqrt e₁.fb < (e₂.fa : ℝ) + Real.sqrt e₂.fb ∨
  ((e₁.fa : ℝ) + Real.sqrt e₁.fb = (e₂.fa : ℝ) + Real.sqrt e₂.fb ∧
    (e₁.g < e₂.g ∨ (e₁.g = e₂.g ∧ e₁.c < e₂.c)))

/-- An open-list entry with priority `3 + √4 = 5`, g-value 3, counter 0. -/
def aEntryA : AEntry := ⟨3, 4, 3, 0, ((0, 0), 0)⟩

/-- An open-list entry with the equal priority `2 + √9 = 5`, but smaller
g-value 2 and larger counter 1. -/
def aEntryB : AEntry := ⟨2, 9, 2, 1, ((0, 0), 0)⟩

/-- The base loop invariant of the embedded A* search, relative to the
node table, the goal key and the start state.  `opn`/`came`/`gsc` mirror
the Python `open_heap`, `came_from` and `g_score`:

* every open entry prices `f` as `g + √(16·sqdist)` of its own state;
* every open entry's state has a recorded g-score not above the entry's g;
* every open entry's g, and every recorded g-score, is the length of an
  actual action path from the start (hence a natural number);
* g-scores are bounded by the size of `came_from` (each strict improvement
  either enters a new state into both maps or lowers an existing value);
* `came_from` maps exactly the non-start discovered states, each link is a
  genuine transition whose source g-score is strictly below its target. -/
structure ABase (t : Table) (goalK : Key) (start : St) (σ : ALoopSt) : Prop where
  open_f : ∀ e ∈ σ.opn, e.fa = e.g ∧ e.fb = heurRad t goalK e.st.1
  open_ge : ∀ e ∈ σ.opn, ∃ v, alookup σ.gsc e.st = some v ∧ v ≤ e.g
  open_path : ∀ e ∈ σ.opn, ∃ p, execPlan t (build_adjacency t) start p = some e.st
      ∧ (p.length : ℚ) = e.g
  open_gbound : ∀ e ∈ σ.opn, e.g ≤ (σ.came.length : ℚ)
  gsc_path : ∀ s v, alookup σ.gsc s = some v →
      ∃ p, execPlan t (build_adjacency t) start p = some s ∧ (p.length : ℚ) = v
  gsc_start : alookup σ.gsc start = some 0
  gsc_bound : ∀ s v, alookup σ.gsc s = some v → v ≤ (σ.came.length : ℚ)
  gsc_nodup : (σ.gsc.map Prod.fst).Nodup
  came_nodup : (σ.came.map Prod.fst).Nodup
  came_start : alookup σ.came start = none
  came_dom : ∀ s, s ≠ start → (alookup σ.gsc s).isSome → (alookup σ.came s).isSome
  came_sub : ∀ s, (alookup σ.came s).isSome → (alookup σ.gsc s).isSome
  came_step : ∀ s pr a, alookup σ.came s = some (pr, a) →
      stepSt t (build_adjacency t) pr a = some s ∧
      ∃ vp vs, alookup σ.gsc pr = some vp ∧ alookup σ.gsc s = some vs ∧ vp + 1 ≤ vs
  valid_st : ∀ s v, alookup σ.gsc s = some v → s.1 ∈ keysOf t ∧
      (s.2 = 0 ∨ s.2 = 90 ∨ s.2 = 180 ∨ s.2 = 270)

/-- The per-state expansion cover: a discovered state either still has an
open entry carrying its current g-score, or has had every successor
relaxed to within one of it. -/
def coverAt (t : Table) (σ : ALoopSt) (s : St) : Prop :=
  ∀ v, alookup σ.gsc s = some v →
    (∃ e ∈ σ.opn, e.st = s ∧ e.g = v) ∨
    (∀ a s', stepSt t (build_adjacency t) s a = some s' →
      ∃ v', alookup σ.gsc s' = some v' ∧ v' ≤ v + 1)

/-- A discovered goal-key state always keeps an open entry at its current
g-score (popping such an entry returns immediately, so it is never
consumed by an expansion). -/
def goalOpenAt (goalK : Key) (σ : ALoopSt) (s : St) : Prop :=
  ∀ v, alookup σ.gsc s = some v → s.1 = goalK →
    ∃ e ∈ σ.opn, e.st = s ∧ e.g = v

/-- The full loop invariant: the base invariant plus the cover and the
goal-retention property at every state. -/
structure AInv (t : Table) (goalK : Key) (start : St) (σ : ALoopSt) : Prop where
  base : ABase t goalK start σ
  cover : ∀ s, coverAt t σ s
  goal_open : ∀ s, goalOpenAt goalK σ s

/-- The termination measure of the A* loop: discovering a state pays for
all its future g-score decreases, every push is paid by a discovery or a
decrease, and every iteration pops one entry. -/
def PhiA (t : Table) (σ : ALoopSt) : ℕ :=
  (4 * t.length + 2) * (4 * t.length - σ.gsc.length)
    + (σ.gsc.map (fun s => s.2.num.toNat)).sum + σ.opn.length

/-! # Theorems -/

/-- C7: for every yaw, `normalize_yaw(yaw)` equals
`floor((yaw + 45)/90) * 90 mod 360`, lies in `{0, 90, 180, 270}`, and takes
the specified values at 44, 46, 134, 136 and −1. -/
theorem normalize_yaw_spec :
    (∀ yaw : ℚ, normalize_yaw yaw = (⌊(yaw + 45) / 90⌋ * 90) % 360 ∧
      (normalize_yaw yaw = 0 ∨ normalize_yaw yaw = 90 ∨
        normalize_yaw yaw = 180 ∨ normalize_yaw yaw = 270)) ∧
    normalize_yaw 44 = 0 ∧ normalize_yaw 46 = 90 ∧ normalize_yaw 134 = 90 ∧
    normalize_yaw 136 = 180 ∧ normalize_yaw (-1) = 0 := by
  refine ⟨fun yaw => ⟨rfl, ?_⟩, by norm_num [normalize_yaw], by norm_num [normalize_yaw],
    by norm_num [normalize_yaw], by norm_num [normalize_yaw], by norm_num [normalize_yaw]⟩
  unfold normalize_yaw
  generalize ⌊(yaw + 45) / 90⌋ = n
  omega

/-- C6: for cardinal current and target headings, the rotation decomposer
follows the fixed table (`diff = 0` → nothing, 90 → one `RotateRight`,
180 → two `RotateRight`, 270 → one `RotateLeft`), and the executor's
final-orientation alignment `_turn_actions` emits exactly the sequence of
`_rotation_actions` applied to the snapped headings. -/
theorem rotation_actions_table :
    (∀ c t : ℤ,
      (c = 0 ∨ c = 90 ∨ c = 180 ∨ c = 270) →
      (t = 0 ∨ t = 90 ∨ t = 180 ∨ t = 270) →
      (((t - c) % 360 = 0 → rotation_actions c t = []) ∧
       ((t - c) % 360 = 90 → rotation_actions c t = [.RotateRight]) ∧
       ((t - c) % 360 = 180 → rotation_actions c t = [.RotateRight, .RotateRight]) ∧
       ((t - c) % 360 = 270 → rotation_actions c t = [.RotateLeft]))) ∧
    (∀ (cy dy : ℚ),
      turn_actions cy (some dy) = rotation_actions (normalize_yaw cy) (normalize_yaw dy)) := by
  constructor
  · rintro c t (rfl | rfl | rfl | rfl) (rfl | rfl | rfl | rfl) <;>
      exact ⟨by decide, by decide, by decide, by decide⟩
  · intro cy dy
    rfl

/-- Witness for C6 at the concrete headings 90 → 270 (diff 180): exactly
two `RotateRight`. -/
theorem rotation_actions_table_witness :
    rotation_actions 90 270 = [.RotateRight, .RotateRight] :=
  (rotation_actions_table.1 90 270 (by decide) (by decide)).2.2.1 (by decide)

/-- C10: when the reachable-positions metadata is empty or absent,
`_execute_goto` returns the ordinary failure triple
`(False, last event, 'No reachable positions found')` without raising and
without sending any motion primitive to the environment. -/
theorem goto_no_reachable {σ : Type} (E : EnvModel σ) (fuel : ℕ) (s₀ : σ)
    (h : E.reachMeta = none) :
    execute_goto E fuel s₀ = (.ok (false, s₀, "No reachable positions found"), []) := by
  unfold execute_goto
  rw [h]

/-- Witness for C10 on a concrete mock environment. -/
theorem goto_no_reachable_witness :
    execute_goto mockEmptyReachEnv 0 () =
      (.ok (false, (), "No reachable positions found"), []) :=
  goto_no_reachable mockEmptyReachEnv 0 () rfl

/-- C5: with reachable metadata present, an entirely empty
interactable-pose list makes `_execute_goto` raise, while a non-empty list
whose first candidate is `None` makes it return the ordinary
`(False, observation, message)` failure without raising. -/
theorem goto_pose_error_taxonomy {σ : Type} (E : EnvModel σ) (fuel : ℕ)
    (s₀ : σ) (rm : ReachMeta) (h : E.reachMeta = some rm) :
    (E.poses = [] →
      execute_goto E fuel s₀ = (.error .noInteractablePoses, [])) ∧
    (∀ tl, E.poses = none :: tl →
      execute_goto E fuel s₀ =
        (.ok (false, s₀, "GotoLocation missing valid target"), [])) := by
  constructor
  · intro hp
    unfold execute_goto
    rw [h, hp]
    rfl
  · intro tl hp
    unfold execute_goto
    rw [h, hp]
    rfl

/-- Witness for C5 on concrete mock environments: one with an empty pose
list and one whose first candidate is `None`. -/
theorem goto_pose_error_taxonomy_witness :
    execute_goto mockNoPosesEnv 0 () = (.error .noInteractablePoses, []) ∧
    execute_goto mockNonePoseEnv 0 () =
      (.ok (false, (), "GotoLocation missing valid target"), []) :=
  ⟨(goto_pose_error_taxonomy mockNoPosesEnv 0 () mockReach rfl).1 rfl,
   (goto_pose_error_taxonomy mockNonePoseEnv 0 () mockReach rfl).2 [] rfl⟩

/-- C3: when `jps_actions` raises its (catchable) no-path `RuntimeError`,
`_execute_goto` builds the adjacency and calls `astar_actions` on the same
node table, start key, start heading and goal key; if A* fails too, the
exception propagates as a raised hard stop rather than an ordinary
`(False, observation, message)` result, and if A* succeeds, execution
continues with the A* plan. -/
theorem goto_jps_fallback {σ : Type} (E : EnvModel σ) (fuel : ℕ) (s₀ : σ)
    (rm : ReachMeta) (pose : IPose) (tl : List (Option IPose)) (m : String)
    (sk tk : Key)
    (hr : E.reachMeta = some rm) (hp : E.poses = some pose :: tl)
    (hs : nearest_key (build_node_lookup rm.positions) rm.agent.position = some sk)
    (ht : nearest_key (build_node_lookup rm.positions) ⟨pose.x, pose.z⟩ = some tk)
    (hj : jps_actions (build_node_lookup rm.positions) sk
            (normalize_yaw rm.agent.rotationY) tk = .error (.runtimeError m)) :
    (∀ e, astar_actions (build_node_lookup rm.positions)
          (build_adjacency (build_node_lookup rm.positions)) sk
          (normalize_yaw rm.agent.rotationY) tk = .error e →
        execute_goto E fuel s₀ = (.error (.planningFailed e), [])) ∧
    (∀ acts, astar_actions (build_node_lookup rm.positions)
          (build_adjacency (build_node_lookup rm.positions)) sk
          (normalize_yaw rm.agent.rotationY) tk = .ok acts →
        execute_goto E fuel s₀ =
          (let run := runActs E s₀ acts
           if !run.1 then (.ok (false, run.2.1, E.errMsg run.2.1), run.2.2)
           else
             let fin := gotoFinish E pose fuel run.2.1
             (fin.1, run.2.2 ++ fin.2))) := by
  constructor
  · intro e ha
    unfold execute_goto
    rw [hr, hp]
    simp only [List.isEmpty_cons, List.head?_cons, hs, ht, hj, ha]
    rfl
  · intro acts ha
    unfold execute_goto
    rw [hr, hp]
    simp only [List.isEmpty_cons, List.head?_cons, hs, ht, hj, ha]
    rfl

/-- Witness for C3 on the disconnected two-node grid: JPS fails, the A*
fallback is consulted and fails, and the request raises. -/
theorem goto_jps_fallback_witness :
    execute_goto mockSplitEnv 0 () =
      (.error (.planningFailed (.runtimeError "No path found to target")), []) :=
  (goto_jps_fallback mockSplitEnv 0 () mockReach ⟨1, 1, 0⟩ []
      "No path found to target using JPS" (0, 0) (1, 1) rfl rfl
      (by with_unfolding_all decide) (by with_unfolding_all decide)
      (by with_unfolding_all decide)).1
    (.runtimeError "No path found to target") (by with_unfolding_all decide)

/-! ### Lemmas on the visibility recovery scan -/

theorem scanUp_stop {σ : Type} (E : EnvModel σ) (n : ℕ) (cur : ℚ) (s : σ)
    (h : ¬(cur > -30 + 1/1000)) : scanUp E (n+1) cur s = (.ok false, s, []) := by
  rw [scanUp, if_neg h]

theorem scanUp_fail {σ : Type} (E : EnvModel σ) (n : ℕ) (cur : ℚ) (s : σ)
    (h : cur > -30 + 1/1000) (h2 : (E.stepPrim s .LookUp).1 = false) :
    scanUp E (n+1) cur s = (.error .lookUpFailed, (E.stepPrim s .LookUp).2, [.LookUp]) := by
  rw [scanUp, if_pos h, h2]
  rfl

theorem scanUp_vis {σ : Type} (E : EnvModel σ) (n : ℕ) (cur : ℚ) (s : σ)
    (h : cur > -30 + 1/1000) (h2 : (E.stepPrim s .LookUp).1 = true)
    (h3 : E.visible (E.stepPrim s .LookUp).2 = true) :
    scanUp E (n+1) cur s = (.ok true, (E.stepPrim s .LookUp).2, [.LookUp]) := by
  rw [scanUp, if_pos h, h2, h3]
  rfl

theorem scanUp_rec {σ : Type} (E : EnvModel σ) (n : ℕ) (cur : ℚ) (s : σ)
    (h : cur > -30 + 1/1000) (h2 : (E.stepPrim s .LookUp).1 = true)
    (h3 : E.visible (E.stepPrim s .LookUp).2 = false) :
    scanUp E (n+1) cur s =
      ((scanUp E n (E.horizon (E.stepPrim s .LookUp).2) (E.stepPrim s .LookUp).2).1,
       (scanUp E n (E.horizon (E.stepPrim s .LookUp).2) (E.stepPrim s .LookUp).2).2.1,
       .LookUp ::
         (scanUp E n (E.horizon (E.stepPrim s .LookUp).2) (E.stepPrim s .LookUp).2).2.2) := by
  rw [scanUp, if_pos h, h2, h3]
  rfl

theorem scanDown_stop {σ : Type} (E : EnvModel σ) (n : ℕ) (cur : ℚ) (s : σ)
    (h : ¬(cur < 90 - 1/1000)) :
    scanDown E (n+1) cur s = (.error .horizonExhaustedHeldObjectOccluder, s, []) := by
  rw [scanDown, if_neg h]

theorem scanDown_fail {σ : Type} (E : EnvModel σ) (n : ℕ) (cur : ℚ) (s : σ)
    (h : cur < 90 - 1/1000) (h2 : (E.stepPrim s .LookDown).1 = false) :
    scanDown E (n+1) cur s =
      (.error .lookDownFailed, (E.stepPrim s .LookDown).2, [.LookDown]) := by
  rw [scanDown, if_pos h, h2]
  rfl

theorem scanDown_vis {σ : Type} (E : EnvModel σ) (n : ℕ) (cur : ℚ) (s : σ)
    (h : cur < 90 - 1/1000) (h2 : (E.stepPrim s .LookDown).1 = true)
    (h3 : E.visible (E.stepPrim s .LookDown).2 = true) :
    scanDown E (n+1) cur s = (.ok true, (E.stepPrim s .LookDown).2, [.LookDown]) := by
  rw [scanDown, if_pos h, h2, h3]
  rfl

theorem scanDown_rec {σ : Type} (E : EnvModel σ) (n : ℕ) (cur : ℚ) (s : σ)
    (h : cur < 90 - 1/1000) (h2 : (E.stepPrim s .LookDown).1 = true)
    (h3 : E.visible (E.stepPrim s .LookDown).2 = false) :
    scanDown E (n+1) cur s =
      ((scanDown E n (E.horizon (E.stepPrim s .LookDown).2) (E.stepPrim s .LookDown).2).1,
       (scanDown E n (E.horizon (E.stepPrim s .LookDown).2) (E.stepPrim s .LookDown).2).2.1,
       .LookDown ::
         (scanDown E n (E.horizon (E.stepPrim s .LookDown).2)
            (E.stepPrim s .LookDown).2).2.2) := by
  rw [scanDown, if_pos h, h2, h3]
  rfl

theorem scanUp_all_lookUp {σ : Type} (E : EnvModel σ) :
    ∀ (fuel : ℕ) (cur : ℚ) (s : σ), ∀ a ∈ (scanUp E fuel cur s).2.2, a = Act.LookUp := by
  intro fuel
  induction fuel with
  | zero => intro cur s a ha; simp [scanUp] at ha
  | succ n ih =>
    intro cur s a ha
    by_cases h : cur > -30 + 1/1000
    · by_cases h2 : (E.stepPrim s .LookUp).1 = true
      · by_cases h3 : E.visible (E.stepPrim s .LookUp).2 = true
        · rw [scanUp_vis E n cur s h h2 h3] at ha
          simpa using ha
        · rw [scanUp_rec E n cur s h h2 (by simpa using h3)] at ha
          simp at ha
          rcases ha with ha | ha
          · exact ha
          · exact ih _ _ a ha
      · rw [scanUp_fail E n cur s h (by simpa using h2)] at ha
        simpa using ha
    · rw [scanUp_stop E n cur s h] at ha
      simp at ha

theorem scanDown_all_lookDown {σ : Type} (E : EnvModel σ) :
    ∀ (fuel : ℕ) (cur : ℚ) (s : σ),
      ∀ a ∈ (scanDown E fuel cur s).2.2, a = Act.LookDown := by
  intro fuel
  induction fuel with
  | zero => intro cur s a ha; simp [scanDown] at ha
  | succ n ih =>
    intro cur s a ha
    by_cases h : cur < 90 - 1/1000
    · by_cases h2 : (E.stepPrim s .LookDown).1 = true
      · by_cases h3 : E.visible (E.stepPrim s .LookDown).2 = true
        · rw [scanDown_vis E n cur s h h2 h3] at ha
          simpa using ha
        · rw [scanDown_rec E n cur s h h2 (by simpa using h3)] at ha
          simp at ha
          rcases ha with ha | ha
          · exact ha
          · exact ih _ _ a ha
      · rw [scanDown_fail E n cur s h (by simpa using h2)] at ha
        simpa using ha
    · rw [scanDown_stop E n cur s h] at ha
      simp at ha

theorem scanUp_ok_false_horizon {σ : Type} (E : EnvModel σ) :
    ∀ (fuel : ℕ) (cur : ℚ) (s : σ), cur = E.horizon s →
      (scanUp E fuel cur s).1 = .ok false →
      E.horizon (scanUp E fuel cur s).2.1 ≤ -30 + 1/1000 := by
  intro fuel
  induction fuel with
  | zero => intro cur s hc h; simp [scanUp] at h
  | succ n ih =>
    intro cur s hc h
    by_cases hgt : cur > -30 + 1/1000
    · by_cases h2 : (E.stepPrim s .LookUp).1 = true
      · by_cases h3 : E.visible (E.stepPrim s .LookUp).2 = true
        · rw [scanUp_vis E n cur s hgt h2 h3] at h
          simp at h
        · rw [scanUp_rec E n cur s hgt h2 (by simpa using h3)] at h ⊢
          exact ih _ _ rfl h
      · rw [scanUp_fail E n cur s hgt (by simpa using h2)] at h
        simp at h
    · rw [scanUp_stop E n cur s hgt]
      rw [hc] at hgt
      simpa using le_of_not_lt hgt

theorem scanDown_not_ok_false {σ : Type} (E : EnvModel σ) :
    ∀ (fuel : ℕ) (cur : ℚ) (s : σ), (scanDown E fuel cur s).1 ≠ .ok false := by
  intro fuel
  induction fuel with
  | zero => intro cur s h; simp [scanDown] at h
  | succ n ih =>
    intro cur s h
    by_cases hgt : cur < 90 - 1/1000
    · by_cases h2 : (E.stepPrim s .LookDown).1 = true
      · by_cases h3 : E.visible (E.stepPrim s .LookDown).2 = true
        · rw [scanDown_vis E n cur s hgt h2 h3] at h
          simp at h
        · rw [scanDown_rec E n cur s hgt h2 (by simpa using h3)] at h
          exact ih _ _ h
      · rw [scanDown_fail E n cur s hgt (by simpa using h2)] at h
        simp at h
    · rw [scanDown_stop E n cur s hgt] at h
      simp at h

theorem scanUp_ok_false_not_visible {σ : Type} (E : EnvModel σ) :
    ∀ (fuel : ℕ) (cur : ℚ) (s : σ), (scanUp E fuel cur s).1 = .ok false →
      ∀ x ∈ statesAfter E s (scanUp E fuel cur s).2.2, E.visible x = false := by
  intro fuel
  induction fuel with
  | zero => intro cur s h; simp [scanUp] at h
  | succ n ih =>
    intro cur s h x hx
    by_cases hgt : cur > -30 + 1/1000
    · by_cases h2 : (E.stepPrim s .LookUp).1 = true
      · by_cases h3 : E.visible (E.stepPrim s .LookUp).2 = true
        · rw [scanUp_vis E n cur s hgt h2 h3] at h
          simp at h
        · rw [scanUp_rec E n cur s hgt h2 (by simpa using h3)] at h hx
          simp only [statesAfter] at hx
          cases hx with
          | head => simpa using h3
          | tail b hx => exact ih _ _ h x hx
      · rw [scanUp_fail E n cur s hgt (by simpa using h2)] at h
        simp at h
    · rw [scanUp_stop E n cur s hgt] at hx
      simp [statesAfter] at hx

theorem scanUp_ok_true_states {σ : Type} (E : EnvModel σ) :
    ∀ (fuel : ℕ) (cur : ℚ) (s : σ), (scanUp E fuel cur s).1 = .ok true →
      ∃ mids, statesAfter E s (scanUp E fuel cur s).2.2
          = mids ++ [(scanUp E fuel cur s).2.1] ∧
        E.visible (scanUp E fuel cur s).2.1 = true ∧
        ∀ x ∈ mids, E.visible x = false := by
  intro fuel
  induction fuel with
  | zero => intro cur s h; simp [scanUp] at h
  | succ n ih =>
    intro cur s h
    by_cases hgt : cur > -30 + 1/1000
    · by_cases h2 : (E.stepPrim s .LookUp).1 = true
      · by_cases h3 : E.visible (E.stepPrim s .LookUp).2 = true
        · rw [scanUp_vis E n cur s hgt h2 h3]
          exact ⟨[], by simp [statesAfter], h3, by simp⟩
        · rw [scanUp_rec E n cur s hgt h2 (by simpa using h3)] at h ⊢
          obtain ⟨mids, hm, hv, hnv⟩ := ih _ _ h
          refine ⟨(E.stepPrim s Act.LookUp).2 :: mids, ?_, hv, ?_⟩
          · simp only [statesAfter, hm, List.cons_append]
          · intro x hx
            cases hx with
            | head => simpa using h3
            | tail b hx => exact hnv x hx
      · rw [scanUp_fail E n cur s hgt (by simpa using h2)] at h
        simp at h
    · rw [scanUp_stop E n cur s hgt] at h
      simp at h

theorem scanDown_ok_true_states {σ : Type} (E : EnvModel σ) :
    ∀ (fuel : ℕ) (cur : ℚ) (s : σ), (scanDown E fuel cur s).1 = .ok true →
      ∃ mids, statesAfter E s (scanDown E fuel cur s).2.2
          = mids ++ [(scanDown E fuel cur s).2.1] ∧
        E.visible (scanDown E fuel cur s).2.1 = true ∧
        ∀ x ∈ mids, E.visible x = false := by
  intro fuel
  induction fuel with
  | zero => intro cur s h; simp [scanDown] at h
  | succ n ih =>
    intro cur s h
    by_cases hgt : cur < 90 - 1/1000
    · by_cases h2 : (E.stepPrim s .LookDown).1 = true
      · by_cases h3 : E.visible (E.stepPrim s .LookDown).2 = true
        · rw [scanDown_vis E n cur s hgt h2 h3]
          exact ⟨[], by simp [statesAfter], h3, by simp⟩
        · rw [scanDown_rec E n cur s hgt h2 (by simpa using h3)] at h ⊢
          obtain ⟨mids, hm, hv, hnv⟩ := ih _ _ h
          refine ⟨(E.stepPrim s Act.LookDown).2 :: mids, ?_, hv, ?_⟩
          · simp only [statesAfter, hm, List.cons_append]
          · intro x hx
            cases hx with
            | head => simpa using h3
            | tail b hx => exact hnv x hx
      · rw [scanDown_fail E n cur s hgt (by simpa using h2)] at h
        simp at h
    · rw [scanDown_stop E n cur s hgt] at h
      simp at h

theorem scanUp_replayEnd {σ : Type} (E : EnvModel σ) :
    ∀ (fuel : ℕ) (cur : ℚ) (s : σ),
      replayEnd E s (scanUp E fuel cur s).2.2 = (scanUp E fuel cur s).2.1 := by
  intro fuel
  induction fuel with
  | zero => intro cur s; simp [scanUp, replayEnd]
  | succ n ih =>
    intro cur s
    by_cases hgt : cur > -30 + 1/1000
    · by_cases h2 : (E.stepPrim s .LookUp).1 = true
      · by_cases h3 : E.visible (E.stepPrim s .LookUp).2 = true
        · rw [scanUp_vis E n cur s hgt h2 h3]
          simp [replayEnd]
        · rw [scanUp_rec E n cur s hgt h2 (by simpa using h3)]
          simpa [replayEnd] using ih _ _
      · rw [scanUp_fail E n cur s hgt (by simpa using h2)]
        simp [replayEnd]
    · rw [scanUp_stop E n cur s hgt]
      simp [replayEnd]

theorem statesAfter_append {σ : Type} (E : EnvModel σ) :
    ∀ (l₁ l₂ : List Act) (s : σ),
      statesAfter E s (l₁ ++ l₂)
        = statesAfter E s l₁ ++ statesAfter E (replayEnd E s l₁) l₂ := by
  intro l₁
  induction l₁ with
  | nil => intro l₂ s; simp [statesAfter, replayEnd]
  | cons a rest ih =>
    intro l₂ s
    simp [statesAfter, replayEnd, ih]

theorem adjust_vis {σ : Type} (E : EnvModel σ) (fuel : ℕ) (s : σ)
    (h : E.visible s = true) : adjust_horizon E fuel s = (.ok true, s, []) := by
  simp only [adjust_horizon, h, if_true]

theorem adjust_upErr {σ : Type} (E : EnvModel σ) (fuel : ℕ) (s : σ) (e : GotoErr)
    (hv : E.visible s = false)
    (h : (scanUp E fuel (E.horizon s) s).1 = .error e) :
    adjust_horizon E fuel s =
      (.error e, (scanUp E fuel (E.horizon s) s).2.1,
        (scanUp E fuel (E.horizon s) s).2.2) := by
  simp only [adjust_horizon, hv, Bool.false_eq_true, if_false, h]

theorem adjust_upTrue {σ : Type} (E : EnvModel σ) (fuel : ℕ) (s : σ)
    (hv : E.visible s = false)
    (h : (scanUp E fuel (E.horizon s) s).1 = .ok true) :
    adjust_horizon E fuel s =
      (.ok true, (scanUp E fuel (E.horizon s) s).2.1,
        (scanUp E fuel (E.horizon s) s).2.2) := by
  simp only [adjust_horizon, hv, Bool.false_eq_true, if_false, h]

theorem adjust_upFalse {σ : Type} (E : EnvModel σ) (fuel : ℕ) (s : σ)
    (hv : E.visible s = false)
    (h : (scanUp E fuel (E.horizon s) s).1 = .ok false) :
    adjust_horizon E fuel s =
      ((scanDown E fuel (E.horizon (scanUp E fuel (E.horizon s) s).2.1)
          (scanUp E fuel (E.horizon s) s).2.1).1,
       (scanDown E fuel (E.horizon (scanUp E fuel (E.horizon s) s).2.1)
          (scanUp E fuel (E.horizon s) s).2.1).2.1,
       (scanUp E fuel (E.horizon s) s).2.2 ++
         (scanDown E fuel (E.horizon (scanUp E fuel (E.horizon s) s).2.1)
            (scanUp E fuel (E.horizon s) s).2.1).2.2) := by
  simp only [adjust_horizon, hv, Bool.false_eq_true, if_false, h]

/-- C4: in the visibility recovery scan, (i) every issued `LookUp` precedes
every issued `LookDown`, and a `LookDown` is issued only after the LookUp
phase has ended with the camera tilt at (or tolerance-close to) the −30
lower bound; (ii) the scan returns success exactly when the target becomes
visible, immediately — every earlier observation along the trace is not
visible; (iii) the scan never returns an ordinary `False`; (iv) if the
target is never visible and the tilt walks the 30-degree increments from 0
to the +90 upper bound, the scan always raises the held-object-occluder
diagnostic. -/
theorem horizon_scan_spec {σ : Type} (E : EnvModel σ) (fuel : ℕ) (s : σ) :
    (∃ upT dnT, (adjust_horizon E fuel s).2.2 = upT ++ dnT ∧
      (∀ a ∈ upT, a = Act.LookUp) ∧ (∀ a ∈ dnT, a = Act.LookDown) ∧
      (dnT ≠ [] →
        (scanUp E fuel (E.horizon s) s).1 = .ok false ∧
        E.horizon (scanUp E fuel (E.horizon s) s).2.1 ≤ -30 + 1/1000)) ∧
    ((adjust_horizon E fuel s).1 = .ok true →
      ((adjust_horizon E fuel s).2.2 = [] ∧ (adjust_horizon E fuel s).2.1 = s ∧
        E.visible s = true) ∨
      (∃ mids, statesAfter E s (adjust_horizon E fuel s).2.2
          = mids ++ [(adjust_horizon E fuel s).2.1] ∧
        E.visible (adjust_horizon E fuel s).2.1 = true ∧
        ∀ x ∈ mids, E.visible x = false)) ∧
    (∀ b, (adjust_horizon E fuel s).1 = .ok b → b = true) ∧
    ((∀ x, E.visible x = false) → (∀ x a, (E.stepPrim x a).1 = true) →
      (∀ x, E.horizon (E.stepPrim x .LookUp).2 = E.horizon x - 30) →
      (∀ x, E.horizon (E.stepPrim x .LookDown).2 = E.horizon x + 30) →
      E.horizon s = 0 → 6 ≤ fuel →
      (adjust_horizon E fuel s).1 = .error .horizonExhaustedHeldObjectOccluder) := by
  refine ⟨?_, ?_, ?_, ?_⟩
  · -- (i) trace decomposition
    by_cases hv : E.visible s = true
    · exact ⟨[], [], by rw [adjust_vis E fuel s hv]; simp, by simp, by simp, by simp⟩
    · replace hv : E.visible s = false := by simpa using hv
      rcases hup : (scanUp E fuel (E.horizon s) s).1 with e | b
      · exact ⟨(scanUp E fuel (E.horizon s) s).2.2, [],
          by rw [adjust_upErr E fuel s e hv hup]; simp,
          fun a ha => scanUp_all_lookUp E fuel _ s a ha, by simp, by simp⟩
      · cases b
        · refine ⟨(scanUp E fuel (E.horizon s) s).2.2,
            (scanDown E fuel (E.horizon (scanUp E fuel (E.horizon s) s).2.1)
              (scanUp E fuel (E.horizon s) s).2.1).2.2,
            by rw [adjust_upFalse E fuel s hv hup],
            fun a ha => scanUp_all_lookUp E fuel _ s a ha,
            fun a ha => scanDown_all_lookDown E fuel _ _ a ha,
            fun _ => ⟨rfl, scanUp_ok_false_horizon E fuel _ s rfl hup⟩⟩
        · exact ⟨(scanUp E fuel (E.horizon s) s).2.2, [],
            by rw [adjust_upTrue E fuel s hv hup]; simp,
            fun a ha => scanUp_all_lookUp E fuel _ s a ha, by simp, by simp⟩
  · -- (ii) success is immediate at the first visible observation
    intro hok
    by_cases hv : E.visible s = true
    · left
      rw [adjust_vis E fuel s hv]
      exact ⟨rfl, rfl, hv⟩
    · right
      replace hv : E.visible s = false := by simpa using hv
      rcases hup : (scanUp E fuel (E.horizon s) s).1 with e | b
      · rw [adjust_upErr E fuel s e hv hup] at hok
        simp at hok
      · cases b
        · rw [adjust_upFalse E fuel s hv hup] at hok ⊢
          obtain ⟨mids, hm, hvv, hnv⟩ := scanDown_ok_true_states E fuel _ _ hok
          refine ⟨statesAfter E s (scanUp E fuel (E.horizon s) s).2.2 ++ mids, ?_, hvv, ?_⟩
          · rw [statesAfter_append, scanUp_replayEnd, hm, List.append_assoc]
          · intro x hx
            rcases List.mem_append.mp hx with hx | hx
            · exact scanUp_ok_false_not_visible E fuel _ s hup x hx
            · exact hnv x hx
        · rw [adjust_upTrue E fuel s hv hup] at hok ⊢
          exact scanUp_ok_true_states E fuel _ s hup
  · -- (iii) never an ordinary failure
    intro b hb
    by_cases hv : E.visible s = true
    · rw [adjust_vis E fuel s hv] at hb
      simpa using hb.symm
    · replace hv : E.visible s = false := by simpa using hv
      rcases hup : (scanUp E fuel (E.horizon s) s).1 with e | b'
      · rw [adjust_upErr E fuel s e hv hup] at hb
        simp at hb
      · cases b'
        · rw [adjust_upFalse E fuel s hv hup] at hb
          cases b
          · exact absurd hb (scanDown_not_ok_false E fuel _ _)
          · rfl
        · rw [adjust_upTrue E fuel s hv hup] at hb
          simpa using hb.symm
  · -- (iv) exhausting the upper bound raises the diagnostic
    intro hvis hsucc hup hdn hs0 hfuel
    obtain ⟨k, rfl⟩ : ∃ k, fuel = k + 6 := ⟨fuel - 6, by omega⟩
    have h1 : E.horizon (E.stepPrim s .LookUp).2 = -30 := by rw [hup, hs0]; norm_num
    have hupEq : scanUp E (k + 6) (E.horizon s) s
        = (.ok false, (E.stepPrim s .LookUp).2, [.LookUp]) := by
      rw [hs0]
      rw [show k + 6 = (k + 5) + 1 from rfl,
        scanUp_rec E (k + 5) 0 s (by norm_num) (hsucc s .LookUp) (hvis _), h1]
      rw [show k + 5 = (k + 4) + 1 from rfl, scanUp_stop E (k + 4) (-30) _ (by norm_num)]
    have hd1 : E.horizon (E.stepPrim (E.stepPrim s .LookUp).2 .LookDown).2 = 0 := by
      rw [hdn, h1]; norm_num
    have hdnEq : (scanDown E (k + 6) (-30) (E.stepPrim s .LookUp).2).1
        = .error .horizonExhaustedHeldObjectOccluder := by
      rw [show k + 6 = (k + 5) + 1 from rfl,
        scanDown_rec E (k + 5) (-30) _ (by norm_num) (hsucc _ .LookDown) (hvis _), hd1]
      have hd2 : E.horizon (E.stepPrim (E.stepPrim (E.stepPrim s .LookUp).2
          .LookDown).2 .LookDown).2 = 30 := by rw [hdn, hd1]; norm_num
      rw [show k + 5 = (k + 4) + 1 from rfl,
        scanDown_rec E (k + 4) 0 _ (by norm_num) (hsucc _ .LookDown) (hvis _), hd2]
      have hd3 : E.horizon (E.stepPrim (E.stepPrim (E.stepPrim (E.stepPrim s .LookUp).2
          .LookDown).2 .LookDown).2 .LookDown).2 = 60 := by rw [hdn, hd2]; norm_num
      rw [show k + 4 = (k + 3) + 1 from rfl,
        scanDown_rec E (k + 3) 30 _ (by norm_num) (hsucc _ .LookDown) (hvis _), hd3]
      have hd4 : E.horizon (E.stepPrim (E.stepPrim (E.stepPrim (E.stepPrim (E.stepPrim s
          .LookUp).2 .LookDown).2 .LookDown).2 .LookDown).2 .LookDown).2 = 90 := by
        rw [hdn, hd3]; norm_num
      rw [show k + 3 = (k + 2) + 1 from rfl,
        scanDown_rec E (k + 2) 60 _ (by norm_num) (hsucc _ .LookDown) (hvis _), hd4]
      rw [show k + 2 = (k + 1) + 1 from rfl, scanDown_stop E (k + 1) 90 _ (by norm_num)]
    rw [adjust_upFalse E (k + 6) s (hvis s) (by rw [hupEq])]
    have : (scanUp E (k + 6) (E.horizon s) s).2.1 = (E.stepPrim s .LookUp).2 := by
      rw [hupEq]
    rw [this, h1, hdnEq]

/-- Witness for C4 on the mock 30-degree-increment environment starting at
tilt 0 with a never-visible target: the scan raises the
held-object-occluder diagnostic. -/
theorem horizon_scan_spec_witness :
    (adjust_horizon mockScanEnv 10 0).1 = .error .horizonExhaustedHeldObjectOccluder :=
  (horizon_scan_spec mockScanEnv 10 0).2.2.2 (fun _ => rfl) (fun _ _ => rfl)
    (fun _ => by simp [mockScanEnv]) (fun _ => by simp [mockScanEnv]) rfl
    (by norm_num)

/-! ### Lemmas on the nearest-key scan -/

theorem selectMinBy_le (f : Key → ℚ) :
    ∀ (l : List Key) (b : Key),
      f (selectMinBy f b l) ≤ f b ∧ ∀ k ∈ l, f (selectMinBy f b l) ≤ f k := by
  intro l
  induction l with
  | nil => intro b; simp [selectMinBy]
  | cons k rest ih =>
    intro b
    by_cases h : f k < f b
    · rw [selectMinBy, if_pos h]
      refine ⟨le_of_lt (lt_of_le_of_lt (ih k).1 h), ?_⟩
      intro x hx
      cases hx with
      | head => exact (ih k).1
      | tail b hx => exact (ih k).2 x hx
    · rw [selectMinBy, if_neg h]
      refine ⟨(ih b).1, ?_⟩
      intro x hx
      cases hx with
      | head => exact le_trans (ih b).1 (le_of_not_lt h)
      | tail b hx => exact (ih b).2 x hx

theorem selectMinBy_first (f : Key → ℚ) :
    ∀ (l : List Key) (b : Key),
      ∃ pre post, b :: l = pre ++ selectMinBy f b l :: post ∧
        ∀ k ∈ pre, f (selectMinBy f b l) < f k := by
  intro l
  induction l with
  | nil => intro b; exact ⟨[], [], by simp [selectMinBy], by simp⟩
  | cons k rest ih =>
    intro b
    by_cases h : f k < f b
    · rw [selectMinBy, if_pos h]
      obtain ⟨pre, post, hsplit, hlt⟩ := ih k
      refine ⟨b :: pre, post, by simpa using hsplit, ?_⟩
      intro x hx
      cases hx with
      | head => exact lt_of_le_of_lt (selectMinBy_le f rest k).1 h
      | tail b hx => exact hlt x hx
    · rw [selectMinBy, if_neg h]
      obtain ⟨pre, post, hsplit, hlt⟩ := ih b
      cases pre with
      | nil =>
        simp only [List.nil_append] at hsplit
        rw [List.cons.injEq] at hsplit
        refine ⟨[], k :: rest, ?_, by simp⟩
        rw [List.nil_append, ← hsplit.1]
      | cons p ps =>
        simp only [List.cons_append, List.cons.injEq] at hsplit
        obtain ⟨hbp, hrest⟩ := hsplit
        subst hbp
        refine ⟨b :: k :: ps, post, ?_, ?_⟩
        · rw [show ((b :: k :: ps) ++ selectMinBy f b rest :: post : List Key)
              = b :: k :: (ps ++ selectMinBy f b rest :: post) by simp, ← hrest]
        · intro x hx
          have hb : f (selectMinBy f b rest) < f b := hlt b (by simp)
          cases hx with
          | head => exact hb
          | tail _ hx =>
            cases hx with
            | head => exact lt_of_lt_of_le hb (le_of_not_lt h)
            | tail _ hx => exact hlt x (List.mem_cons_of_mem _ hx)

/-- C9 (counterexample): two node tables with identical key-to-position
contents (a permutation, with pointwise-equal dictionary lookups) but
opposite insertion orders, a query point equidistant from both nodes —
`nearest_key` returns a different key for each table, so the tie-break
depends on insertion order. -/
theorem nearest_key_order_dependent :
    List.Perm tTieA tTieB ∧
    (∀ k, alookup tTieA k = alookup tTieB k) ∧
    nearest_key tTieA ⟨1/4, 0⟩ = some (0, 0) ∧
    nearest_key tTieB ⟨1/4, 0⟩ = some (1/2, 0) ∧
    sqdTo tTieA ⟨1/4, 0⟩ (0, 0) = sqdTo tTieA ⟨1/4, 0⟩ (1/2, 0) ∧
    nearest_key tTieA ⟨1/4, 0⟩ ≠ nearest_key tTieB ⟨1/4, 0⟩ := by
  refine ⟨List.Perm.swap _ _ _, ?_, ?_, ?_, ?_, ?_⟩
  · intro k
    simp only [tTieA, tTieB, alookup]
    split_ifs with h1 h2 <;> try rfl
    all_goals
      exfalso
      rw [← h1] at h2
      rw [Prod.ext_iff] at h2
      norm_num at h2
  · with_unfolding_all decide
  · with_unfolding_all decide
  · with_unfolding_all decide
  · with_unfolding_all decide

/-- C9 (amended): when the quantized key of the query point is absent,
`nearest_key` returns the first key in table iteration (= insertion) order
among those minimizing the squared horizontal distance; the tie-break is
deterministic given the table's order, but is insertion order, not an
order-independent rule. -/
theorem nearest_key_first_minimizer (t : Table) (p : Pos)
    (hne : t ≠ []) (hmiss : make_key p.x p.z ∉ keysOf t) :
    ∃ k, nearest_key t p = some k ∧ k ∈ keysOf t ∧
      (∀ k' ∈ keysOf t, sqdTo t p k ≤ sqdTo t p k') ∧
      ∃ pre post, keysOf t = pre ++ k :: post ∧
        ∀ k' ∈ pre, sqdTo t p k < sqdTo t p k' := by
  obtain ⟨k₀, rest, hk⟩ : ∃ k₀ rest, keysOf t = k₀ :: rest := by
    cases ht : keysOf t with
    | nil => exact absurd (List.map_eq_nil_iff.mp ht) hne
    | cons a l => exact ⟨a, l, rfl⟩
  refine ⟨selectMinBy (sqdTo t p) k₀ rest, ?_, ?_, ?_, ?_⟩
  · simp only [nearest_key]
    rw [if_neg hmiss, hk]
  · obtain ⟨pre, post, hsplit, _⟩ := selectMinBy_first (sqdTo t p) rest k₀
    rw [hk, hsplit]
    simp
  · intro k' hk'
    rw [hk] at hk'
    cases hk' with
    | head => exact (selectMinBy_le (sqdTo t p) rest k₀).1
    | tail _ hx => exact (selectMinBy_le (sqdTo t p) rest k₀).2 k' hx
  · obtain ⟨pre, post, hsplit, hlt⟩ := selectMinBy_first (sqdTo t p) rest k₀
    exact ⟨pre, post, by rw [hk, hsplit], hlt⟩

/-- Witness for the amended C9 on the concrete tied table. -/
theorem nearest_key_first_minimizer_witness :
    ∃ k, nearest_key tTieA ⟨1/4, 0⟩ = some k ∧ k ∈ keysOf tTieA ∧
      (∀ k' ∈ keysOf tTieA, sqdTo tTieA ⟨1/4, 0⟩ k ≤ sqdTo tTieA ⟨1/4, 0⟩ k') ∧
      ∃ pre post, keysOf tTieA = pre ++ k :: post ∧
        ∀ k' ∈ pre, sqdTo tTieA ⟨1/4, 0⟩ k < sqdTo tTieA ⟨1/4, 0⟩ k' :=
  nearest_key_first_minimizer tTieA ⟨1/4, 0⟩ (by with_unfolding_all decide)
    (by with_unfolding_all decide)

/-! ### The exact square-root comparator and the heap order -/

theorem le_or_sq (x y : ℝ) (hy : 0 ≤ y) : (x ≤ 0 ∨ x ^ 2 ≤ y ^ 2) ↔ x ≤ y := by
  constructor
  · rintro (h | h)
    · linarith
    · by_cases hx : x ≤ 0
      · linarith
      · nlinarith
  · intro h
    by_cases hx : x ≤ 0
    · exact Or.inl hx
    · right; nlinarith

theorem ge_and_sq (x y : ℝ) (hy : 0 ≤ y) : (0 ≤ x ∧ y ^ 2 ≤ x ^ 2) ↔ y ≤ x := by
  constructor
  · rintro ⟨h1, h2⟩
    nlinarith
  · intro h
    exact ⟨by linarith, by nlinarith⟩

theorem sqrtAddLe_iff (a₁ b₁ a₂ b₂ : ℚ) (hb₁ : 0 ≤ b₁) (hb₂ : 0 ≤ b₂) :
    sqrtAddLe a₁ b₁ a₂ b₂ = true ↔
      (a₁ : ℝ) + Real.sqrt b₁ ≤ (a₂ : ℝ) + Real.sqrt b₂ := by
  have hb₁' : (0:ℝ) ≤ (b₁ : ℝ) := by exact_mod_cast hb₁
  have hb₂' : (0:ℝ) ≤ (b₂ : ℝ) := by exact_mod_cast hb₂
  have hs₁ : Real.sqrt b₁ ^ 2 = (b₁ : ℝ) := Real.sq_sqrt hb₁'
  have hs₂ : Real.sqrt b₂ ^ 2 = (b₂ : ℝ) := Real.sq_sqrt hb₂'
  have hn₁ : 0 ≤ Real.sqrt (b₁ : ℝ) := Real.sqrt_nonneg _
  have hn₂ : 0 ≤ Real.sqrt (b₂ : ℝ) := Real.sqrt_nonneg _
  have hrhs : ((a₁ : ℝ) + Real.sqrt b₁ ≤ (a₂ : ℝ) + Real.sqrt b₂)
      ↔ Real.sqrt b₁ ≤ ((a₂ - a₁ : ℚ) : ℝ) + Real.sqrt b₂ := by
    push_cast
    constructor <;> intro <;> linarith
  rw [hrhs]
  unfold sqrtAddLe
  by_cases hd : 0 ≤ a₂ - a₁
  · rw [if_pos hd, Bool.or_eq_true, decide_eq_true_iff, decide_eq_true_iff]
    have hd' : (0:ℝ) ≤ ((a₂ - a₁ : ℚ) : ℝ) := by exact_mod_cast hd
    have hsum : 0 ≤ ((a₂ - a₁ : ℚ) : ℝ) + Real.sqrt b₂ := by linarith
    have hcast : (b₁ - (a₂ - a₁) ^ 2 - b₂ ≤ 0
          ∨ (b₁ - (a₂ - a₁) ^ 2 - b₂) ^ 2 ≤ 4 * (a₂ - a₁) ^ 2 * b₂)
        ↔ (((b₁ : ℝ) - ((a₂ - a₁ : ℚ) : ℝ) ^ 2 - b₂) ≤ 0
          ∨ ((b₁ : ℝ) - ((a₂ - a₁ : ℚ) : ℝ) ^ 2 - b₂) ^ 2
              ≤ (2 * ((a₂ - a₁ : ℚ) : ℝ) * Real.sqrt b₂) ^ 2) := by
      have h4 : (2 * ((a₂ - a₁ : ℚ) : ℝ) * Real.sqrt b₂) ^ 2
          = 4 * ((a₂ - a₁ : ℚ) : ℝ) ^ 2 * (b₂ : ℝ) := by
        nlinarith [hs₂]
      rw [h4]
      constructor
      · rintro (h | h)
        · exact Or.inl (by exact_mod_cast h)
        · exact Or.inr (by exact_mod_cast h)
      · rintro (h | h)
        · exact Or.inl (by exact_mod_cast h)
        · exact Or.inr (by exact_mod_cast h)
    rw [hcast, le_or_sq _ _ (mul_nonneg (by linarith) hn₂)]
    constructor <;> intro h <;> nlinarith [hs₂]
  · rw [if_neg hd, Bool.and_eq_true, decide_eq_true_iff, decide_eq_true_iff]
    have hd' : ((a₂ - a₁ : ℚ) : ℝ) < 0 := by
      push_neg at hd
      exact_mod_cast hd
    have hcast : (0 ≤ b₂ - b₁ - (a₂ - a₁) ^ 2
          ∧ 4 * (a₂ - a₁) ^ 2 * b₁ ≤ (b₂ - b₁ - (a₂ - a₁) ^ 2) ^ 2)
        ↔ (0 ≤ ((b₂ : ℝ) - b₁ - ((a₂ - a₁ : ℚ) : ℝ) ^ 2)
          ∧ (2 * (-((a₂ - a₁ : ℚ) : ℝ)) * Real.sqrt b₁) ^ 2
              ≤ ((b₂ : ℝ) - b₁ - ((a₂ - a₁ : ℚ) : ℝ) ^ 2) ^ 2) := by
      have h4 : (2 * (-((a₂ - a₁ : ℚ) : ℝ)) * Real.sqrt b₁) ^ 2
          = 4 * ((a₂ - a₁ : ℚ) : ℝ) ^ 2 * (b₁ : ℝ) := by
        nlinarith [hs₁]
      rw [h4]
      constructor
      · rintro ⟨h1, h2⟩
        exact ⟨by exact_mod_cast h1, by exact_mod_cast h2⟩
      · rintro ⟨h1, h2⟩
        exact ⟨by exact_mod_cast h1, by exact_mod_cast h2⟩
    rw [hcast, ge_and_sq _ _ (mul_nonneg (by linarith) hn₁)]
    constructor <;> intro h <;> nlinarith [hs₂, hs₁]

theorem entryLtB_iff (e₁ e₂ : AEntry) (h₁ : 0 ≤ e₁.fb) (h₂ : 0 ≤ e₂.fb) :
    entryLtB e₁ e₂ = true ↔ EntLt e₁ e₂ := by
  unfold entryLtB EntLt
  by_cases h21 : sqrtAddLe e₂.fa e₂.fb e₁.fa e₁.fb = true
  · rw [if_pos h21]
    have h21' := (sqrtAddLe_iff e₂.fa e₂.fb e₁.fa e₁.fb h₂ h₁).mp h21
    by_cases h12 : sqrtAddLe e₁.fa e₁.fb e₂.fa e₂.fb = true
    · have h12' := (sqrtAddLe_iff e₁.fa e₁.fb e₂.fa e₂.fb h₁ h₂).mp h12
      have heq : (e₁.fa : ℝ) + Real.sqrt e₁.fb = (e₂.fa : ℝ) + Real.sqrt e₂.fb :=
        le_antisymm h12' h21'
      rw [h12]
      simp only [Bool.true_and, Bool.or_eq_true, Bool.and_eq_true,
        decide_eq_true_iff]
      constructor
      · intro h
        exact Or.inr ⟨heq, h⟩
      · rintro (h | ⟨_, h⟩)
        · exact absurd h (by rw [heq]; exact lt_irrefl _)
        · exact h
    · have h12' : ¬((e₁.fa : ℝ) + Real.sqrt e₁.fb ≤ (e₂.fa : ℝ) + Real.sqrt e₂.fb) :=
        fun hc => h12 ((sqrtAddLe_iff e₁.fa e₁.fb e₂.fa e₂.fb h₁ h₂).mpr hc)
      rw [Bool.eq_false_iff.mpr h12]
      simp only [Bool.false_and, Bool.false_eq_true, false_iff]
      rintro (h | ⟨h, _⟩)
      · exact h12' (le_of_lt h)
      · exact h12' (le_of_eq h)
  · rw [if_neg h21]
    have h21' : ¬((e₂.fa : ℝ) + Real.sqrt e₂.fb ≤ (e₁.fa : ℝ) + Real.sqrt e₁.fb) :=
      fun hc => h21 ((sqrtAddLe_iff e₂.fa e₂.fb e₁.fa e₁.fb h₂ h₁).mpr hc)
    simp only [true_iff]
    exact Or.inl (lt_of_not_le h21')

theorem entLt_trans (a b c : AEntry) : EntLt a b → EntLt b c → EntLt a c := by
  rintro (h1 | ⟨h1, h1'⟩) (h2 | ⟨h2, h2'⟩)
  · exact Or.inl (lt_trans h1 h2)
  · exact Or.inl (h2 ▸ h1)
  · exact Or.inl (h1 ▸ h2)
  · refine Or.inr ⟨h1.trans h2, ?_⟩
    rcases h1' with h1' | ⟨h1g, h1c⟩ <;> rcases h2' with h2' | ⟨h2g, h2c⟩
    · exact Or.inl (lt_trans h1' h2')
    · exact Or.inl (h2g ▸ h1')
    · exact Or.inl (h1g ▸ h2')
    · exact Or.inr ⟨h1g.trans h2g, lt_trans h1c h2c⟩

theorem entLt_irrefl (a : AEntry) : ¬ EntLt a a := by
  rintro (h | ⟨_, h | ⟨_, h⟩⟩)
  · exact lt_irrefl _ h
  · exact lt_irrefl _ h
  · exact lt_irrefl _ h

theorem entLt_total (a b : AEntry) :
    EntLt a b ∨ EntLt b a ∨
      (((a.fa : ℝ) + Real.sqrt a.fb = (b.fa : ℝ) + Real.sqrt b.fb) ∧
        a.g = b.g ∧ a.c = b.c) := by
  rcases lt_trichotomy ((a.fa : ℝ) + Real.sqrt a.fb) ((b.fa : ℝ) + Real.sqrt b.fb)
    with hf | hf | hf
  · exact Or.inl (Or.inl hf)
  · rcases lt_trichotomy a.g b.g with hg | hg | hg
    · exact Or.inl (Or.inr ⟨hf, Or.inl hg⟩)
    · rcases lt_trichotomy a.c b.c with hc | hc | hc
      · exact Or.inl (Or.inr ⟨hf, Or.inr ⟨hg, hc⟩⟩)
      · exact Or.inr (Or.inr ⟨hf, hg, hc⟩)
      · exact Or.inr (Or.inl (Or.inr ⟨hf.symm, Or.inr ⟨hg.symm, hc⟩⟩))
    · exact Or.inr (Or.inl (Or.inr ⟨hf.symm, Or.inl hg⟩))
  · exact Or.inr (Or.inl (Or.inl hf))

theorem not_entLt_trans (a b c : AEntry) :
    ¬ EntLt b a → ¬ EntLt c b → ¬ EntLt c a := by
  intro h1 h2 h3
  rcases entLt_total a b with h | h | ⟨hf, hg, hc⟩
  · exact h2 (entLt_trans c a b h3 h)
  · exact h1 h
  · apply h2
    rcases h3 with h3 | ⟨h3, h3'⟩
    · exact Or.inl (hf ▸ h3)
    · exact Or.inr ⟨hf ▸ h3, hg ▸ hc ▸ h3'⟩

theorem selMinE_spec (l : List AEntry) (b : AEntry)
    (hnn : ∀ e ∈ b :: l, 0 ≤ e.fb) :
    selMinE b l ∈ b :: l ∧ ∀ e ∈ b :: l, ¬ EntLt e (selMinE b l) := by
  induction l generalizing b with
  | nil =>
    refine ⟨by simp [selMinE], ?_⟩
    intro e he
    rw [List.mem_singleton] at he
    rw [selMinE, he]
    exact entLt_irrefl _
  | cons x rest ih =>
    have hb : 0 ≤ b.fb := hnn b (List.mem_cons_self _ _)
    have hx : 0 ≤ x.fb := hnn x (List.mem_cons_of_mem _ (List.mem_cons_self _ _))
    rw [selMinE]
    by_cases hlt : entryLtB x b = true
    · rw [if_pos hlt]
      have hxb : EntLt x b := (entryLtB_iff x b hx hb).mp hlt
      have hnn2 : ∀ e ∈ x :: rest, 0 ≤ e.fb := by
        intro e he
        rcases List.mem_cons.mp he with rfl | he
        · exact hx
        · exact hnn e (List.mem_cons_of_mem _ (List.mem_cons_of_mem _ he))
      obtain ⟨hmem, hmin⟩ := ih x hnn2
      refine ⟨List.mem_cons_of_mem _ hmem, ?_⟩
      intro e he
      rcases List.mem_cons.mp he with rfl | he
      · exact fun hc => hmin x (List.mem_cons_self _ _) (entLt_trans _ _ _ hxb hc)
      · exact hmin e he
    · rw [if_neg hlt]
      have hxb : ¬ EntLt x b := fun hc => hlt ((entryLtB_iff x b hx hb).mpr hc)
      have hnn2 : ∀ e ∈ b :: rest, 0 ≤ e.fb := by
        intro e he
        rcases List.mem_cons.mp he with rfl | he
        · exact hb
        · exact hnn e (List.mem_cons_of_mem _ (List.mem_cons_of_mem _ he))
      obtain ⟨hmem, hmin⟩ := ih b hnn2
      refine ⟨?_, ?_⟩
      · rcases List.mem_cons.mp hmem with h | h
        · rw [h]
          exact List.mem_cons_self _ _
        · exact List.mem_cons_of_mem _ (List.mem_cons_of_mem _ h)
      · intro e he
        rcases List.mem_cons.mp he with rfl | he
        · exact hmin e (List.mem_cons_self _ _)
        · rcases List.mem_cons.mp he with rfl | he
          · exact not_entLt_trans _ _ _ (hmin b (List.mem_cons_self _ _)) hxb
          · exact hmin e (List.mem_cons_of_mem _ he)

theorem popMinE_spec (l : List AEntry) (m : AEntry) (rest : List AEntry)
    (hnn : ∀ e ∈ l, 0 ≤ e.fb) (h : popMinE l = some (m, rest)) :
    m ∈ l ∧ (∀ e ∈ l, ¬ EntLt e m) ∧ rest = l.erase m := by
  cases l with
  | nil => simp [popMinE] at h
  | cons b tl =>
    rw [popMinE] at h
    simp only [Option.some.injEq, Prod.mk.injEq] at h
    obtain ⟨hm, hr⟩ := h
    subst hm
    obtain ⟨h1, h2⟩ := selMinE_spec tl b hnn
    exact ⟨h1, h2, hr.symm⟩

/-- C8 (counterexample): two open-list entries with equal real priorities
`f` (`3 + √4 = 5 = 2 + √9`); the first has the smaller insertion counter,
so an ordering determined by `f` and the counter alone would pop it first,
yet the implemented order pops the second first because its `g` component
is smaller — `g` takes part in the tie-break, contradicting the claim. -/
theorem astar_heap_order_uses_g :
    ((aEntryA.fa : ℝ) + Real.sqrt aEntryA.fb
      = (aEntryB.fa : ℝ) + Real.sqrt aEntryB.fb) ∧
    aEntryA.c < aEntryB.c ∧
    entryLtB aEntryB aEntryA = true ∧
    entryLtB aEntryA aEntryB = false := by
  refine ⟨?_, by norm_num [aEntryA, aEntryB], ?_, ?_⟩
  · have h4 : Real.sqrt (((4 : ℚ) : ℝ)) = 2 := by
      rw [show (((4 : ℚ)) : ℝ) = 2 ^ 2 by norm_num, Real.sqrt_sq (by norm_num)]
    have h9 : Real.sqrt (((9 : ℚ) : ℝ)) = 3 := by
      rw [show (((9 : ℚ)) : ℝ) = 3 ^ 2 by norm_num, Real.sqrt_sq (by norm_num)]
    simp only [aEntryA, aEntryB]
    rw [h4, h9]
    norm_num
  · with_unfolding_all decide
  · with_unfolding_all decide

/-- C8 (amended): the open-list order of `astar_actions` (the order of the
Python tuples `(f, g, counter, state)` popped by `heapq`) is: by the real
priority `f = g + √(16·sqdist)` first, then by `g`, then by the insertion
sequence number; the state component never takes part since counters are
unique. -/
theorem astar_heap_order_spec (e₁ e₂ : AEntry)
    (h₁ : 0 ≤ e₁.fb) (h₂ : 0 ≤ e₂.fb) :
    entryLtB e₁ e₂ = true ↔
      ((e₁.fa : ℝ) + Real.sqrt e₁.fb < (e₂.fa : ℝ) + Real.sqrt e₂.fb ∨
       ((e₁.fa : ℝ) + Real.sqrt e₁.fb = (e₂.fa : ℝ) + Real.sqrt e₂.fb ∧
        (e₁.g < e₂.g ∨ (e₁.g = e₂.g ∧ e₁.c < e₂.c)))) :=
  entryLtB_iff e₁ e₂ h₁ h₂

/-- Witness for the amended C8 at the two concrete entries. -/
theorem astar_heap_order_spec_witness :
    entryLtB aEntryB aEntryA = true ↔
      ((aEntryB.fa : ℝ) + Real.sqrt aEntryB.fb
          < (aEntryA.fa : ℝ) + Real.sqrt aEntryA.fb ∨
       ((aEntryB.fa : ℝ) + Real.sqrt aEntryB.fb
          = (aEntryA.fa : ℝ) + Real.sqrt aEntryA.fb ∧
        (aEntryB.g < aEntryA.g ∨ (aEntryB.g = aEntryA.g ∧ aEntryB.c < aEntryA.c)))) :=
  astar_heap_order_spec aEntryB aEntryA (by norm_num [aEntryB]) (by norm_num [aEntryA])

/-! ### Association-list lemmas -/

theorem alookup_upsert_self {α β : Type} [DecidableEq α]
    (l : List (α × β)) (k : α) (v : β) : alookup (upsert l k v) k = some v := by
  induction l with
  | nil => simp [upsert, alookup]
  | cons e rest ih =>
    by_cases h : e.1 = k
    · rw [show (e :: rest : List (α × β)) = (e.1, e.2) :: rest by rfl, upsert, if_pos h,
        alookup, if_pos rfl]
    · rw [show (e :: rest : List (α × β)) = (e.1, e.2) :: rest by rfl, upsert, if_neg h,
        alookup, if_neg h]
      exact ih

theorem alookup_upsert_other {α β : Type} [DecidableEq α]
    (l : List (α × β)) (k k' : α) (v : β) (h : k ≠ k') :
    alookup (upsert l k v) k' = alookup l k' := by
  induction l with
  | nil => simp [upsert, alookup, h]
  | cons e rest ih =>
    by_cases he : e.1 = k
    · rw [show (e :: rest : List (α × β)) = (e.1, e.2) :: rest by rfl, upsert, if_pos he,
        alookup, if_neg h, alookup, if_neg (he ▸ h)]
    · rw [show (e :: rest : List (α × β)) = (e.1, e.2) :: rest by rfl, upsert, if_neg he,
        alookup, alookup]
      by_cases he' : e.1 = k'
      · rw [if_pos he', if_pos he']
      · rw [if_neg he', if_neg he']
        exact ih

theorem upsert_keys_of_mem {α β : Type} [DecidableEq α]
    (l : List (α × β)) (k : α) (v : β) (h : (alookup l k).isSome) :
    (upsert l k v).map Prod.fst = l.map Prod.fst := by
  induction l with
  | nil => simp [alookup] at h
  | cons e rest ih =>
    by_cases he : e.1 = k
    · rw [show (e :: rest : List (α × β)) = (e.1, e.2) :: rest by rfl, upsert, if_pos he]
      simp [he]
    · rw [show (e :: rest : List (α × β)) = (e.1, e.2) :: rest by rfl, upsert, if_neg he]
      rw [show (e :: rest : List (α × β)) = (e.1, e.2) :: rest by rfl, alookup,
        if_neg he] at h
      simp [ih h]

theorem upsert_keys_of_absent {α β : Type} [DecidableEq α]
    (l : List (α × β)) (k : α) (v : β) (h : alookup l k = none) :
    (upsert l k v).map Prod.fst = l.map Prod.fst ++ [k] := by
  induction l with
  | nil => simp [upsert]
  | cons e rest ih =>
    rw [show (e :: rest : List (α × β)) = (e.1, e.2) :: rest by rfl, alookup] at h
    by_cases he : e.1 = k
    · rw [if_pos he] at h
      simp at h
    · rw [if_neg he] at h
      rw [show (e :: rest : List (α × β)) = (e.1, e.2) :: rest by rfl, upsert, if_neg he]
      simp [ih h]

theorem alookup_isSome_iff_mem_keys {α β : Type} [DecidableEq α]
    (l : List (α × β)) (k : α) : (alookup l k).isSome ↔ k ∈ l.map Prod.fst := by
  induction l with
  | nil => simp [alookup]
  | cons e rest ih =>
    rw [show (e :: rest : List (α × β)) = (e.1, e.2) :: rest by rfl, alookup]
    by_cases he : e.1 = k
    · simp [he]
    · rw [if_neg he]
      simp only [List.map_cons, List.mem_cons]
      rw [ih]
      constructor
      · exact Or.inr
      · rintro (h | h)
        · exact absurd h.symm he
        · exact h

theorem alookup_none_of_not_mem_keys {α β : Type} [DecidableEq α]
    (l : List (α × β)) (k : α) (h : k ∉ l.map Prod.fst) : alookup l k = none := by
  rcases ho : alookup l k with _ | v
  · rfl
  · exact absurd ((alookup_isSome_iff_mem_keys l k).mp (by rw [ho]; rfl)) h

theorem upsert_nodup_keys {α β : Type} [DecidableEq α]
    (l : List (α × β)) (k : α) (v : β) (h : (l.map Prod.fst).Nodup) :
    ((upsert l k v).map Prod.fst).Nodup := by
  rcases ho : alookup l k with _ | w
  · rw [upsert_keys_of_absent l k v ho]
    rw [List.nodup_append]
    refine ⟨h, List.nodup_singleton _, ?_⟩
    intro a ha hb
    rw [List.mem_singleton] at hb
    subst hb
    exact absurd ((alookup_isSome_iff_mem_keys l a).mpr ha) (by rw [ho]; simp)
  · rw [upsert_keys_of_mem l k v (by rw [ho]; rfl)]
    exact h

theorem alookup_mem {α β : Type} [DecidableEq α]
    (l : List (α × β)) (k : α) (v : β) (h : alookup l k = some v) : (k, v) ∈ l := by
  induction l with
  | nil => simp [alookup] at h
  | cons e rest ih =>
    rw [show (e :: rest : List (α × β)) = (e.1, e.2) :: rest by rfl, alookup] at h
    by_cases he : e.1 = k
    · rw [if_pos he] at h
      simp only [Option.some.injEq] at h
      subst h
      subst he
      exact List.mem_cons_self _ _
    · rw [if_neg he] at h
      exact List.mem_cons_of_mem _ (ih h)

theorem mem_alookup {α β : Type} [DecidableEq α]
    (l : List (α × β)) (k : α) (v : β) (hnd : (l.map Prod.fst).Nodup)
    (h : (k, v) ∈ l) : alookup l k = some v := by
  induction l with
  | nil => simp at h
  | cons e rest ih =>
    rw [List.map_cons, List.nodup_cons] at hnd
    rcases List.mem_cons.mp h with rfl | h
    · rw [alookup, if_pos rfl]
    · rw [show (e :: rest : List (α × β)) = (e.1, e.2) :: rest by rfl, alookup]
      by_cases he : e.1 = k
      · exact absurd (he ▸ (List.mem_map.mpr ⟨(k, v), h, rfl⟩)) hnd.1
      · rw [if_neg he]
        exact ih hnd.2 h

theorem mem_keys_exists_alookup {α β : Type} [DecidableEq α]
    (l : List (α × β)) (k : α) (h : k ∈ l.map Prod.fst) :
    ∃ v, alookup l k = some v := by
  have := (alookup_isSome_iff_mem_keys l k).mpr h
  rcases ho : alookup l k with _ | v
  · rw [ho] at this
    simp at this
  · exact ⟨v, rfl⟩

theorem alookup_map_value {α β γ : Type} [DecidableEq α]
    (l : List (α × β)) (f : β → γ) (k : α) :
    alookup (l.map (fun e => (e.1, f e.2))) k = (alookup l k).map f := by
  induction l with
  | nil => simp [alookup]
  | cons e rest ih =>
    rw [List.map_cons]
    rw [show ((e.1, f e.2) :: rest.map (fun e => (e.1, f e.2))
        : List (α × γ)) = ((e.1, f e.2).1, (e.1, f e.2).2)
          :: rest.map (fun e => (e.1, f e.2)) by rfl, alookup]
    by_cases he : e.1 = k
    · rw [if_pos he, show (e :: rest : List (α × β)) = (e.1, e.2) :: rest by rfl,
        alookup, if_pos he]
      rfl
    · rw [if_neg he, show (e :: rest : List (α × β)) = (e.1, e.2) :: rest by rfl,
        alookup, if_neg he]
      exact ih

/-! ### Grid-alignment arithmetic -/

theorem quarterInt_iff (q : ℚ) : QuarterInt q ↔ ∃ n : ℤ, q = (n : ℚ) / 4 := by
  constructor
  · intro h
    refine ⟨(q * 4).num, ?_⟩
    have h4 : ((q * 4).num : ℚ) = q * 4 := by
      rw [← Rat.den_eq_one_iff]
      exact h
    rw [h4]
    ring
  · rintro ⟨n, rfl⟩
    unfold QuarterInt
    rw [div_mul_cancel₀ _ (by norm_num : (4:ℚ) ≠ 0)]
    exact Rat.den_intCast n

theorem quarterInt_add_quarter (q : ℚ) (h : QuarterInt q) :
    QuarterInt (q + STEP) ∧ QuarterInt (q - STEP) := by
  rw [quarterInt_iff] at h ⊢
  rw [quarterInt_iff (q - STEP)]
  obtain ⟨n, rfl⟩ := h
  exact ⟨⟨n + 1, by push_cast [STEP]; ring⟩, ⟨n - 1, by push_cast [STEP]; ring⟩⟩

theorem roundHE_intCast (n : ℤ) : roundHE (n : ℚ) = n := by
  unfold roundHE
  rw [Int.floor_intCast]
  norm_num

theorem round2_quarterInt (q : ℚ) (h : QuarterInt q) : round2 q = q := by
  rw [quarterInt_iff] at h
  obtain ⟨n, rfl⟩ := h
  unfold round2
  rw [show ((n : ℚ) / 4) * 100 = ((25 * n : ℤ) : ℚ) by push_cast; ring,
    roundHE_intCast]
  push_cast
  ring

theorem make_key_quarterInt (x z : ℚ) (hx : QuarterInt x) (hz : QuarterInt z) :
    make_key x z = (x, z) := by
  unfold make_key
  rw [round2_quarterInt x hx, round2_quarterInt z hz]

/-- Every key of an aligned table is a quarter-integer pair whose stored
position equals the key. -/
theorem aligned_getPos (t : Table) (hA : AlignedTable t) (k : Key)
    (hk : k ∈ keysOf t) :
    getPos t k = ⟨k.1, k.2⟩ ∧ QuarterInt k.1 ∧ QuarterInt k.2 := by
  obtain ⟨p, hp⟩ := mem_keys_exists_alookup t k hk
  have hmem := alookup_mem t k p hp
  obtain ⟨hx, hz, h1, h2⟩ := hA.1 (k, p) hmem
  refine ⟨?_, h1, h2⟩
  rw [getPos, hp]
  simp only [Option.getD_some]
  cases p
  simp only [Pos.mk.injEq]
  exact ⟨hx, hz⟩

theorem cardDir_mem (y : ℤ) (d : ℚ × ℚ) (h : cardDir y = some d) :
    d ∈ cardDirList := by
  unfold cardDir at h
  split_ifs at h <;> simp only [Option.some.injEq] at h <;> subst h <;>
    simp [cardDirList]

theorem cardDirList_norm (d : ℚ × ℚ) (h : d ∈ cardDirList) :
    (d.1 = 0 ∨ d.1 = STEP ∨ d.1 = -STEP) ∧ (d.2 = 0 ∨ d.2 = STEP ∨ d.2 = -STEP) := by
  simp only [cardDirList, List.mem_cons, List.not_mem_nil, or_false] at h
  rcases h with rfl | rfl | rfl | rfl <;> simp

theorem quarterInt_add_dir (q x : ℚ) (h : QuarterInt q)
    (hx : x = 0 ∨ x = STEP ∨ x = -STEP) : QuarterInt (q + x) := by
  rcases hx with rfl | rfl | rfl
  · simpa using h
  · exact (quarterInt_add_quarter q h).1
  · rw [← sub_eq_add_neg]
    exact (quarterInt_add_quarter q h).2

/-- `adjacency[k]` of the built adjacency is the adjacency row of `k`'s
stored position. -/
theorem adjOf_build (t : Table) (k : Key) (p : Pos)
    (h : alookup t k = some p) :
    adjOf (build_adjacency t) k = adjRow t p := by
  unfold adjOf build_adjacency
  rw [alookup_map_value t (adjRow t) k, h]
  rfl

theorem mem_adjRow_iff (t : Table) (p : Pos) (nk : Key) :
    nk ∈ adjRow t p ↔ ∃ d ∈ cardDirList,
      nk = make_key (p.x + d.1) (p.z + d.2) ∧ nk ∈ keysOf t := by
  unfold adjRow
  rw [List.mem_filterMap]
  constructor
  · rintro ⟨d, hd, hnk⟩
    by_cases hin : make_key (p.x + d.1) (p.z + d.2) ∈ keysOf t
    · rw [if_pos hin] at hnk
      simp only [Option.some.injEq] at hnk
      exact ⟨d, hd, hnk.symm, hnk ▸ hin⟩
    · rw [if_neg hin] at hnk
      simp at hnk
  · rintro ⟨d, hd, rfl, hin⟩
    exact ⟨d, hd, by rw [if_pos hin]⟩

/-- The move rule on an aligned table: the forward neighbor key is the key
shifted by the heading's offset, and the move is legal exactly when that
key is in the table. -/
theorem stepSt_move_aligned (t : Table) (hA : AlignedTable t) (k : Key) (y : ℤ)
    (d : ℚ × ℚ) (hk : k ∈ keysOf t) (hd : cardDir y = some d) :
    stepSt t (build_adjacency t) (k, y) .MoveAhead
      = if (k.1 + d.1, k.2 + d.2) ∈ keysOf t
          then some ((k.1 + d.1, k.2 + d.2), y) else none := by
  obtain ⟨hpos, hqx, hqz⟩ := aligned_getPos t hA k hk
  obtain ⟨p, hp⟩ := mem_keys_exists_alookup t k hk
  have hxz : p = ⟨k.1, k.2⟩ := by
    rw [getPos, hp] at hpos
    simpa using hpos
  have hq1 : QuarterInt (k.1 + d.1) :=
    quarterInt_add_dir k.1 d.1 hqx (cardDirList_norm d (cardDir_mem y d hd)).1
  have hq2 : QuarterInt (k.2 + d.2) :=
    quarterInt_add_dir k.2 d.2 hqz (cardDirList_norm d (cardDir_mem y d hd)).2
  have hmk : make_key ((getPos t k).x + d.1) ((getPos t k).z + d.2)
      = (k.1 + d.1, k.2 + d.2) := by
    rw [hpos]
    exact make_key_quarterInt _ _ hq1 hq2
  rw [stepSt, hd]
  rw [adjOf_build t k p hp]
  dsimp only
  rw [hmk]
  by_cases hin : (k.1 + d.1, k.2 + d.2) ∈ keysOf t
  · rw [if_pos hin, if_pos ?_]
    rw [mem_adjRow_iff]
    refine ⟨d, cardDir_mem y d hd, ?_, hin⟩
    rw [hxz]
    exact (make_key_quarterInt _ _ hq1 hq2).symm
  · rw [if_neg hin, if_neg ?_]
    rw [mem_adjRow_iff]
    rintro ⟨d', hd', heq, hin'⟩
    exact hin hin'

/-! ### List and arithmetic helpers for the A* proof -/

theorem upsert_length_mem {α β : Type} [DecidableEq α]
    (l : List (α × β)) (k : α) (v : β) (h : (alookup l k).isSome) :
    (upsert l k v).length = l.length := by
  have h1 : ((upsert l k v).map Prod.fst).length = (l.map Prod.fst).length := by
    rw [upsert_keys_of_mem l k v h]
  simpa using h1

theorem upsert_length_absent {α β : Type} [DecidableEq α]
    (l : List (α × β)) (k : α) (v : β) (h : alookup l k = none) :
    (upsert l k v).length = l.length + 1 := by
  have h1 : ((upsert l k v).map Prod.fst).length
      = (l.map Prod.fst ++ [k]).length := by
    rw [upsert_keys_of_absent l k v h]
  simpa using h1

theorem upsert_sum_mem {α : Type} [DecidableEq α] (F : ℚ → ℕ)
    (l : List (α × ℚ)) (k : α) (v g : ℚ) (h : alookup l k = some g) :
    ((upsert l k v).map (fun s => F s.2)).sum + F g
      = (l.map (fun s => F s.2)).sum + F v := by
  induction l with
  | nil => simp [alookup] at h
  | cons e rest ih =>
    rw [show (e :: rest : List (α × ℚ)) = (e.1, e.2) :: rest by rfl, alookup] at h
    by_cases he : e.1 = k
    · rw [if_pos he] at h
      simp only [Option.some.injEq] at h
      rw [show (e :: rest : List (α × ℚ)) = (e.1, e.2) :: rest by rfl, upsert,
        if_pos he]
      simp only [List.map_cons, List.sum_cons, h]
      omega
    · rw [if_neg he] at h
      rw [show (e :: rest : List (α × ℚ)) = (e.1, e.2) :: rest by rfl, upsert,
        if_neg he]
      simp only [List.map_cons, List.sum_cons]
      have := ih h
      omega

theorem upsert_sum_absent {α : Type} [DecidableEq α] (F : ℚ → ℕ)
    (l : List (α × ℚ)) (k : α) (v : ℚ) (h : alookup l k = none) :
    ((upsert l k v).map (fun s => F s.2)).sum
      = (l.map (fun s => F s.2)).sum + F v := by
  induction l with
  | nil => simp [upsert]
  | cons e rest ih =>
    rw [show (e :: rest : List (α × ℚ)) = (e.1, e.2) :: rest by rfl, alookup] at h
    by_cases he : e.1 = k
    · rw [if_pos he] at h
      simp at h
    · rw [if_neg he] at h
      rw [show (e :: rest : List (α × ℚ)) = (e.1, e.2) :: rest by rfl, upsert,
        if_neg he]
      simp only [List.map_cons, List.sum_cons]
      have := ih h
      omega

theorem length_le_of_nodup_subset {α : Type} [DecidableEq α]
    (l₁ l₂ : List α) (h₁ : l₁.Nodup) (hsub : ∀ x ∈ l₁, x ∈ l₂) :
    l₁.length ≤ l₂.length := by
  calc l₁.length = l₁.toFinset.card := (List.toFinset_card_of_nodup h₁).symm
    _ ≤ l₂.toFinset.card := by
        apply Finset.card_le_card
        intro x hx
        rw [List.mem_toFinset] at hx ⊢
        exact hsub x hx
    _ ≤ l₂.length := l₂.toFinset_card_le

theorem ratNat_num_toNat (n : ℕ) : ((n : ℚ)).num.toNat = n := by
  rw [Rat.num_natCast]
  exact Int.toNat_natCast n

/-! ### Plan execution lemmas -/

theorem execPlan_append (t : Table) (adj : List (Key × List Key))
    (p q : List Act) (s : St) :
    execPlan t adj s (p ++ q)
      = (execPlan t adj s p).bind (fun s' => execPlan t adj s' q) := by
  induction p generalizing s with
  | nil => simp [execPlan]
  | cons a rest ih =>
    rw [List.cons_append, execPlan, execPlan]
    cases stepSt t adj s a with
    | none => rfl
    | some s' => exact ih s'

theorem execPlan_snoc (t : Table) (adj : List (Key × List Key))
    (p : List Act) (a : Act) (s : St) :
    execPlan t adj s (p ++ [a])
      = (execPlan t adj s p).bind (fun s' => stepSt t adj s' a) := by
  rw [execPlan_append]
  cases execPlan t adj s p with
  | none => rfl
  | some s' =>
    show execPlan t adj s' [a] = stepSt t adj s' a
    rw [execPlan]
    cases stepSt t adj s' a with
    | none => rfl
    | some s₂ => rfl

theorem mem_adjOf_keys (t : Table) (k nk : Key)
    (h : nk ∈ adjOf (build_adjacency t) k) : nk ∈ keysOf t := by
  rcases ho : alookup t k with _ | p
  · rw [adjOf, build_adjacency, alookup_map_value t (fun p => adjRow t p) k,
      ho] at h
    simp at h
  · rw [adjOf_build t k p ho] at h
    exact ((mem_adjRow_iff t p nk).mp h).choose_spec.2.2

theorem stepSt_actKind (t : Table) (adj : List (Key × List Key))
    (s s' : St) (a : Act) (h : stepSt t adj s a = some s') :
    a = .MoveAhead ∨ a = .RotateLeft ∨ a = .RotateRight := by
  obtain ⟨k, y⟩ := s
  cases a with
  | MoveAhead => exact Or.inl rfl
  | RotateLeft => exact Or.inr (Or.inl rfl)
  | RotateRight => exact Or.inr (Or.inr rfl)
  | LookUp => simp [stepSt] at h
  | LookDown => simp [stepSt] at h

theorem execPlan_actKinds (t : Table) (adj : List (Key × List Key))
    (p : List Act) (s s' : St) (h : execPlan t adj s p = some s') :
    ∀ a ∈ p, a = .MoveAhead ∨ a = .RotateLeft ∨ a = .RotateRight := by
  induction p generalizing s with
  | nil => simp
  | cons a rest ih =>
    rw [execPlan] at h
    rcases hs : stepSt t adj s a with _ | s₁
    · rw [hs] at h
      simp at h
    · rw [hs] at h
      intro b hb
      rcases List.mem_cons.mp hb with rfl | hb
      · exact stepSt_actKind t adj s s₁ b hs
      · exact ih s₁ h b hb

theorem stepSt_valid (t : Table) (s s' : St) (a : Act)
    (hk : s.1 ∈ keysOf t) (hy : s.2 = 0 ∨ s.2 = 90 ∨ s.2 = 180 ∨ s.2 = 270)
    (h : stepSt t (build_adjacency t) s a = some s') :
    s'.1 ∈ keysOf t ∧ (s'.2 = 0 ∨ s'.2 = 90 ∨ s'.2 = 180 ∨ s'.2 = 270) := by
  obtain ⟨k, y⟩ := s
  cases a with
  | RotateLeft =>
    rw [stepSt] at h
    simp only [Option.some.injEq] at h
    subst h
    refine ⟨hk, ?_⟩
    simp only at hy ⊢
    rcases hy with rfl | rfl | rfl | rfl <;> decide
  | RotateRight =>
    rw [stepSt] at h
    simp only [Option.some.injEq] at h
    subst h
    refine ⟨hk, ?_⟩
    simp only at hy ⊢
    rcases hy with rfl | rfl | rfl | rfl <;> decide
  | MoveAhead =>
    rw [stepSt] at h
    rcases hd : cardDir y with _ | d
    · rw [hd] at h
      simp at h
    · rw [hd] at h
      dsimp only at h
      split_ifs at h with hin
      simp only [Option.some.injEq] at h
      subst h
      exact ⟨mem_adjOf_keys t k _ hin, hy⟩
  | LookUp => simp [stepSt] at h
  | LookDown => simp [stepSt] at h

theorem stepSt_key (t : Table) (s s' : St) (a : Act)
    (hk : s.1 ∈ keysOf t) (h : stepSt t (build_adjacency t) s a = some s') :
    s'.1 ∈ keysOf t := by
  obtain ⟨k, y⟩ := s
  cases a with
  | RotateLeft =>
    rw [stepSt] at h
    simp only [Option.some.injEq] at h
    subst h
    exact hk
  | RotateRight =>
    rw [stepSt] at h
    simp only [Option.some.injEq] at h
    subst h
    exact hk
  | MoveAhead =>
    rw [stepSt] at h
    rcases hd : cardDir y with _ | d
    · rw [hd] at h
      simp at h
    · rw [hd] at h
      dsimp only at h
      split_ifs at h with hin
      simp only [Option.some.injEq] at h
      subst h
      exact mem_adjOf_keys t k _ hin
  | LookUp => simp [stepSt] at h
  | LookDown => simp [stepSt] at h

/-! ### Admissibility of the Euclidean heuristic on aligned tables -/

theorem sqrt_two_triangle (a b c e : ℝ) :
    Real.sqrt ((a + c) ^ 2 + (b + e) ^ 2)
      ≤ Real.sqrt (a ^ 2 + b ^ 2) + Real.sqrt (c ^ 2 + e ^ 2) := by
  have hu0 : 0 ≤ Real.sqrt (a ^ 2 + b ^ 2) := Real.sqrt_nonneg _
  have hw0 : 0 ≤ Real.sqrt (c ^ 2 + e ^ 2) := Real.sqrt_nonneg _
  have hu : Real.sqrt (a ^ 2 + b ^ 2) ^ 2 = a ^ 2 + b ^ 2 :=
    Real.sq_sqrt (by positivity)
  have hw : Real.sqrt (c ^ 2 + e ^ 2) ^ 2 = c ^ 2 + e ^ 2 :=
    Real.sq_sqrt (by positivity)
  have key : (a + c) ^ 2 + (b + e) ^ 2
      ≤ (Real.sqrt (a ^ 2 + b ^ 2) + Real.sqrt (c ^ 2 + e ^ 2)) ^ 2 := by
    nlinarith [sq_nonneg (a * e - b * c), mul_nonneg hu0 hw0,
      sq_nonneg (Real.sqrt (a ^ 2 + b ^ 2) * Real.sqrt (c ^ 2 + e ^ 2)
        - (a * c + b * e))]
  calc Real.sqrt ((a + c) ^ 2 + (b + e) ^ 2)
      ≤ Real.sqrt ((Real.sqrt (a ^ 2 + b ^ 2) + Real.sqrt (c ^ 2 + e ^ 2)) ^ 2) :=
        Real.sqrt_le_sqrt key
    _ = _ := Real.sqrt_sq (by positivity)

theorem heurRad_nonneg (t : Table) (goal k : Key) : 0 ≤ heurRad t goal k := by
  unfold heurRad
  positivity

theorem heurRad_self (t : Table) (k : Key) : heurRad t k k = 0 := by
  unfold heurRad
  ring

theorem heurRad_move (t : Table) (hA : AlignedTable t) (gk k : Key)
    (d : ℚ × ℚ) (hd : d ∈ cardDirList) (hk : k ∈ keysOf t)
    (hk' : (k.1 + d.1, k.2 + d.2) ∈ keysOf t) :
    Real.sqrt (heurRad t gk k)
      ≤ Real.sqrt (heurRad t gk (k.1 + d.1, k.2 + d.2)) + 1 := by
  obtain ⟨hp, -, -⟩ := aligned_getPos t hA k hk
  obtain ⟨hp', -, -⟩ := aligned_getPos t hA (k.1 + d.1, k.2 + d.2) hk'
  have h1 : ((heurRad t gk k : ℚ) : ℝ)
      = (4 * ((k.1 : ℝ) + (d.1 : ℝ) - ((getPos t gk).x : ℝ)) + (-4 * (d.1 : ℝ))) ^ 2
        + (4 * ((k.2 : ℝ) + (d.2 : ℝ) - ((getPos t gk).z : ℝ)) + (-4 * (d.2 : ℝ))) ^ 2 := by
    rw [heurRad, hp]
    push_cast
    ring
  have h2 : ((heurRad t gk (k.1 + d.1, k.2 + d.2) : ℚ) : ℝ)
      = (4 * ((k.1 : ℝ) + (d.1 : ℝ) - ((getPos t gk).x : ℝ))) ^ 2
        + (4 * ((k.2 : ℝ) + (d.2 : ℝ) - ((getPos t gk).z : ℝ))) ^ 2 := by
    rw [heurRad, hp']
    push_cast
    ring
  have h3 : Real.sqrt ((-4 * (d.1 : ℝ)) ^ 2 + (-4 * (d.2 : ℝ)) ^ 2) = 1 := by
    simp only [cardDirList, STEP, List.mem_cons, List.not_mem_nil, or_false] at hd
    rcases hd with rfl | rfl | rfl | rfl <;>
    · push_cast
      norm_num [Real.sqrt_one]
  rw [h1, h2]
  have htri := sqrt_two_triangle
    (4 * ((k.1 : ℝ) + (d.1 : ℝ) - ((getPos t gk).x : ℝ)))
    (4 * ((k.2 : ℝ) + (d.2 : ℝ) - ((getPos t gk).z : ℝ)))
    (-4 * (d.1 : ℝ)) (-4 * (d.2 : ℝ))
  rw [h3] at htri
  exact htri

theorem heur_admissible (t : Table) (hA : AlignedTable t) (gk : Key) :
    ∀ (plan : List Act) (s : St) (y' : ℤ), s.1 ∈ keysOf t →
      execPlan t (build_adjacency t) s plan = some (gk, y') →
      Real.sqrt (heurRad t gk s.1) ≤ (plan.length : ℝ) := by
  intro plan
  induction plan with
  | nil =>
    intro s y' hk h
    rw [execPlan] at h
    simp only [Option.some.injEq] at h
    subst h
    simp [heurRad_self, Real.sqrt_zero]
  | cons a rest ih =>
    intro s y' hk h
    rw [execPlan] at h
    rcases hs : stepSt t (build_adjacency t) s a with _ | s₁
    · rw [hs] at h
      simp at h
    · rw [hs] at h
      have hk₁ : s₁.1 ∈ keysOf t := stepSt_key t s s₁ a hk hs
      have ih' := ih s₁ y' hk₁ h
      have hlen : (((a :: rest).length : ℕ) : ℝ) = (rest.length : ℝ) + 1 := by
        push_cast [List.length_cons]
        ring
      rw [hlen]
      obtain ⟨k, y⟩ := s
      rcases stepSt_actKind t (build_adjacency t) (k, y) s₁ a hs with rfl | rfl | rfl
      · rcases hd : cardDir y with _ | d
        · rw [stepSt, hd] at hs
          simp at hs
        · rw [stepSt_move_aligned t hA k y d hk hd] at hs
          split_ifs at hs with hin
          simp only [Option.some.injEq] at hs
          subst hs
          calc Real.sqrt (heurRad t gk (k, y).1)
              ≤ Real.sqrt (heurRad t gk (k.1 + d.1, k.2 + d.2)) + 1 :=
                heurRad_move t hA gk k d (cardDir_mem y d hd) hk hin
            _ ≤ (rest.length : ℝ) + 1 := by
                have : Real.sqrt (heurRad t gk (k.1 + d.1, k.2 + d.2))
                    ≤ (rest.length : ℝ) := ih'
                linarith
      · rw [stepSt] at hs
        simp only [Option.some.injEq] at hs
        subst hs
        have : Real.sqrt (heurRad t gk (k, y).1) ≤ (rest.length : ℝ) := ih'
        linarith
      · rw [stepSt] at hs
        simp only [Option.some.injEq] at hs
        subst hs
        have : Real.sqrt (heurRad t gk (k, y).1) ≤ (rest.length : ℝ) := ih'
        linarith

/-! ### Size bounds on the discovered-state maps -/

theorem upsert_sum_mem_toNat (l : List (St × ℚ)) (k : St) (v g : ℚ)
    (h : alookup l k = some g) :
    ((upsert l k v).map (fun s => s.2.num.toNat)).sum + g.num.toNat
      = (l.map (fun s => s.2.num.toNat)).sum + v.num.toNat :=
  upsert_sum_mem (fun q => q.num.toNat) l k v g h

theorem upsert_sum_absent_toNat (l : List (St × ℚ)) (k : St) (v : ℚ)
    (h : alookup l k = none) :
    ((upsert l k v).map (fun s => s.2.num.toNat)).sum
      = (l.map (fun s => s.2.num.toNat)).sum + v.num.toNat :=
  upsert_sum_absent (fun q => q.num.toNat) l k v h

/-- A nodup map over valid states (key in the table, one of the four
cardinal yaws) has at most `4 * t.length` entries. -/
theorem gsc_len_bound (t : Table) (gsc : List (St × ℚ))
    (hnd : (gsc.map Prod.fst).Nodup)
    (hval : ∀ s v, alookup gsc s = some v → s.1 ∈ keysOf t ∧
      (s.2 = 0 ∨ s.2 = 90 ∨ s.2 = 180 ∨ s.2 = 270)) :
    gsc.length ≤ 4 * t.length := by
  have hsub : ∀ x ∈ gsc.map Prod.fst,
      x ∈ ((keysOf t).map (fun k => (k, (0:ℤ)))
        ++ (keysOf t).map (fun k => (k, (90:ℤ)))
        ++ (keysOf t).map (fun k => (k, (180:ℤ)))
        ++ (keysOf t).map (fun k => (k, (270:ℤ)))) := by
    intro x hx
    obtain ⟨v, hv⟩ := mem_keys_exists_alookup gsc x hx
    obtain ⟨hk, hy⟩ := hval x v hv
    obtain ⟨k, y⟩ := x
    simp only [List.mem_append, List.mem_map]
    simp only at hy hk
    rcases hy with rfl | rfl | rfl | rfl
    · exact Or.inl (Or.inl (Or.inl ⟨k, hk, rfl⟩))
    · exact Or.inl (Or.inl (Or.inr ⟨k, hk, rfl⟩))
    · exact Or.inl (Or.inr ⟨k, hk, rfl⟩)
    · exact Or.inr ⟨k, hk, rfl⟩
  have hlen := length_le_of_nodup_subset _ _ hnd hsub
  simp only [List.length_map, List.length_append, keysOf] at hlen
  omega

/-- A nodup association list whose keys all appear in a second list's keys
is no longer than it. -/
theorem alist_len_le {α β γ : Type} [DecidableEq α]
    (l₁ : List (α × β)) (l₂ : List (α × γ))
    (hnd : (l₁.map Prod.fst).Nodup)
    (hsub : ∀ s, (alookup l₁ s).isSome → (alookup l₂ s).isSome) :
    l₁.length ≤ l₂.length := by
  have h := length_le_of_nodup_subset (l₁.map Prod.fst) (l₂.map Prod.fst) hnd
    (fun x hx => (alookup_isSome_iff_mem_keys l₂ x).mp
      (hsub x ((alookup_isSome_iff_mem_keys l₁ x).mpr hx)))
  simpa using h

/-! ### Preservation of the invariant by one relaxation -/

/-- The master lemma for one `relaxA` call (with the heuristic key equal
to the successor's own key, as at every call site in `expandA`): the base
invariant is preserved, the potential does not increase, g-scores only
improve pointwise, the `came_from` map only grows, open entries persist,
the relaxed state ends with a g-score at most `tent`, untouched g-scores
are unchanged, and the cover and goal-retention properties transfer. -/
theorem relaxA_pres (t : Table) (goalK : Key) (start : St)
    (cur st' : St) (a : Act) (tent : ℚ) (hk : Key) (σ : ALoopSt)
    (hhk : hk = st'.1)
    (hB : ABase t goalK start σ)
    (hstep : stepSt t (build_adjacency t) cur a = some st')
    (hpath : ∃ p, execPlan t (build_adjacency t) start p = some st'
      ∧ ((p.length : ℕ) : ℚ) = tent)
    (hcur : ∃ vc, alookup σ.gsc cur = some vc ∧ vc + 1 ≤ tent)
    (htb : tent ≤ (σ.came.length : ℚ) + 1) :
    ABase t goalK start (relaxA t goalK cur st' a tent hk σ)
    ∧ PhiA t (relaxA t goalK cur st' a tent hk σ) ≤ PhiA t σ
    ∧ (∀ s v₀, alookup σ.gsc s = some v₀ →
        ∃ v, alookup (relaxA t goalK cur st' a tent hk σ).gsc s = some v ∧ v ≤ v₀)
    ∧ σ.came.length ≤ (relaxA t goalK cur st' a tent hk σ).came.length
    ∧ (∀ e ∈ σ.opn, e ∈ (relaxA t goalK cur st' a tent hk σ).opn)
    ∧ (∃ v, alookup (relaxA t goalK cur st' a tent hk σ).gsc st'
        = some v ∧ v ≤ tent)
    ∧ (∀ s, s ≠ st' → alookup (relaxA t goalK cur st' a tent hk σ).gsc s
        = alookup σ.gsc s)
    ∧ (∀ s, coverAt t σ s → coverAt t (relaxA t goalK cur st' a tent hk σ) s)
    ∧ (∀ s, goalOpenAt goalK σ s →
        goalOpenAt goalK (relaxA t goalK cur st' a tent hk σ) s) := by
  subst hhk
  obtain ⟨vc, hvc, hvc1⟩ := hcur
  obtain ⟨pn, hpn, hpnl⟩ := hpath
  have hvc0 : 0 ≤ vc := by
    obtain ⟨pc, hpc, hpcl⟩ := hB.gsc_path cur vc hvc
    rw [← hpcl]
    positivity
  have htent0 : 0 < tent := by linarith
  have hσeq : relaxA t goalK cur st' a tent st'.1 σ
      = if (match alookup σ.gsc st' with
          | none => true
          | some g => decide (tent < g)) = true
        then ⟨σ.opn ++ [⟨tent, heurRad t goalK st'.1, tent, σ.ctr, st'⟩],
              upsert σ.came st' (cur, a), upsert σ.gsc st' tent, σ.ctr + 1⟩
        else σ := rfl
  by_cases himp : (match alookup σ.gsc st' with
      | none => true
      | some g => decide (tent < g)) = true
  case neg =>
    rw [hσeq, if_neg himp]
    refine ⟨hB, le_refl _, fun s v₀ h => ⟨v₀, h, le_refl _⟩, le_refl _,
      fun e he => he, ?_, fun s _ => rfl, fun s hc => hc, fun s hg => hg⟩
    rcases hg : alookup σ.gsc st' with _ | g
    · rw [hg] at himp
      simp at himp
    · rw [hg] at himp
      simp only [decide_eq_true_eq] at himp
      exact ⟨g, rfl, le_of_not_lt himp⟩
  case pos =>
    have himp_lt : ∀ g, alookup σ.gsc st' = some g → tent < g := by
      intro g hg
      rw [hg] at himp
      simpa using himp
    have hst'cur : st' ≠ cur := by
      rintro rfl
      have := himp_lt vc hvc
      linarith
    have hst'start : st' ≠ start := by
      rintro rfl
      have := himp_lt 0 hB.gsc_start
      linarith
    have hvalid' : st'.1 ∈ keysOf t ∧
        (st'.2 = 0 ∨ st'.2 = 90 ∨ st'.2 = 180 ∨ st'.2 = 270) :=
      stepSt_valid t cur st' a (hB.valid_st cur vc hvc).1
        (hB.valid_st cur vc hvc).2 hstep
    rw [hσeq, if_pos himp]
    set E : AEntry := ⟨tent, heurRad t goalK st'.1, tent, σ.ctr, st'⟩ with hE
    -- the came_from length never shrinks, and bounds tent afterwards
    have hcame_len : σ.came.length ≤ (upsert σ.came st' (cur, a)).length := by
      rcases hc : alookup σ.came st' with _ | w
      · rw [upsert_length_absent σ.came st' (cur, a) hc]
        omega
      · rw [upsert_length_mem σ.came st' (cur, a) (by rw [hc]; rfl)]
    have htb' : tent ≤ ((upsert σ.came st' (cur, a)).length : ℚ) := by
      rcases hc : alookup σ.came st' with _ | w
      · rw [upsert_length_absent σ.came st' (cur, a) hc]
        push_cast
        linarith
      · rw [upsert_length_mem σ.came st' (cur, a) (by rw [hc]; rfl)]
        have hg : (alookup σ.gsc st').isSome :=
          hB.came_sub st' (by rw [hc]; rfl)
        rcases hgs : alookup σ.gsc st' with _ | g
        · rw [hgs] at hg
          simp at hg
        · have h1 := himp_lt g hgs
          have h2 := hB.gsc_bound st' g hgs
          linarith
    -- pointwise-unchanged lookups away from st'
    have hother : ∀ s, s ≠ st' →
        alookup (upsert σ.gsc st' tent) s = alookup σ.gsc s := by
      intro s hs
      exact alookup_upsert_other σ.gsc st' s tent (fun h => hs h.symm)
    have hotherC : ∀ s, s ≠ st' →
        alookup (upsert σ.came st' (cur, a)) s = alookup σ.came s := by
      intro s hs
      exact alookup_upsert_other σ.came st' s (cur, a) (fun h => hs h.symm)
    refine ⟨?_, ?_, ?_, hcame_len, ?_, ?_, hother, ?_, ?_⟩
    -- ABase
    · refine ⟨?_, ?_, ?_, ?_, ?_, ?_, ?_, ?_, ?_, ?_, ?_, ?_, ?_, ?_⟩
      · -- open_f
        intro e he
        rcases List.mem_append.mp he with he | he
        · exact hB.open_f e he
        · rw [List.mem_singleton] at he
          subst he
          exact ⟨rfl, rfl⟩
      · -- open_ge
        intro e he
        rcases List.mem_append.mp he with he | he
        · obtain ⟨v, hv, hvle⟩ := hB.open_ge e he
          by_cases hes : e.st = st'
          · rw [hes] at hv ⊢
            rw [alookup_upsert_self]
            exact ⟨tent, rfl, le_trans (le_of_lt (himp_lt v hv)) hvle⟩
          · rw [hother e.st hes]
            exact ⟨v, hv, hvle⟩
        · rw [List.mem_singleton] at he
          subst he
          rw [show E.st = st' from rfl, alookup_upsert_self]
          exact ⟨tent, rfl, le_refl _⟩
      · -- open_path
        intro e he
        rcases List.mem_append.mp he with he | he
        · exact hB.open_path e he
        · rw [List.mem_singleton] at he
          subst he
          exact ⟨pn, hpn, hpnl⟩
      · -- open_gbound
        intro e he
        rcases List.mem_append.mp he with he | he
        · refine le_trans (hB.open_gbound e he) ?_
          exact_mod_cast Nat.cast_le.mpr hcame_len
        · rw [List.mem_singleton] at he
          subst he
          exact htb'
      · -- gsc_path
        intro s v hv
        by_cases hs : s = st'
        · subst hs
          rw [alookup_upsert_self] at hv
          simp only [Option.some.injEq] at hv
          subst hv
          exact ⟨pn, hpn, hpnl⟩
        · rw [hother s hs] at hv
          exact hB.gsc_path s v hv
      · -- gsc_start
        rw [hother start (fun h => hst'start h.symm)]
        exact hB.gsc_start
      · -- gsc_bound
        intro s v hv
        by_cases hs : s = st'
        · subst hs
          rw [alookup_upsert_self] at hv
          simp only [Option.some.injEq] at hv
          subst hv
          exact htb'
        · rw [hother s hs] at hv
          refine le_trans (hB.gsc_bound s v hv) ?_
          exact_mod_cast Nat.cast_le.mpr hcame_len
      · -- gsc_nodup
        exact upsert_nodup_keys σ.gsc st' tent hB.gsc_nodup
      · -- came_nodup
        exact upsert_nodup_keys σ.came st' (cur, a) hB.came_nodup
      · -- came_start
        rw [hotherC start (fun h => hst'start h.symm)]
        exact hB.came_start
      · -- came_dom
        intro s hs hsome
        by_cases hseq : s = st'
        · subst hseq
          rw [alookup_upsert_self]
          rfl
        · rw [hother s hseq] at hsome
          rw [hotherC s hseq]
          exact hB.came_dom s hs hsome
      · -- came_sub
        intro s hsome
        by_cases hseq : s = st'
        · subst hseq
          rw [alookup_upsert_self]
          rfl
        · rw [hotherC s hseq] at hsome
          rw [hother s hseq]
          exact hB.came_sub s hsome
      · -- came_step
        intro s pr a₀ hl
        by_cases hseq : s = st'
        · subst hseq
          rw [alookup_upsert_self] at hl
          simp only [Option.some.injEq, Prod.mk.injEq] at hl
          obtain ⟨rfl, rfl⟩ := hl
          refine ⟨hstep, vc, tent, ?_, alookup_upsert_self _ _ _, hvc1⟩
          rw [hother cur (fun h => hst'cur h.symm)]
          exact hvc
        · rw [hotherC s hseq] at hl
          obtain ⟨hstep₀, vp, vs, hvp, hvs, hps⟩ := hB.came_step s pr a₀ hl
          refine ⟨hstep₀, ?_⟩
          by_cases hpr : pr = st'
          · subst hpr
            refine ⟨tent, vs, alookup_upsert_self _ _ _, ?_, ?_⟩
            · rw [hother s hseq]
              exact hvs
            · have := himp_lt vp hvp
              linarith
          · refine ⟨vp, vs, ?_, ?_, hps⟩
            · rw [hother pr hpr]
              exact hvp
            · rw [hother s hseq]
              exact hvs
      · -- valid_st
        intro s v hv
        by_cases hs : s = st'
        · subst hs
          exact hvalid'
        · rw [hother s hs] at hv
          exact hB.valid_st s v hv
    -- PhiA does not increase
    · have htentN : tent.num.toNat = pn.length := by
        rw [← hpnl, ratNat_num_toNat]
      have hop : (σ.opn ++ [E]).length = σ.opn.length + 1 := by simp
      rcases hgs : alookup σ.gsc st' with _ | g
      · -- new state discovered
        have hlen' : (upsert σ.gsc st' tent).length = σ.gsc.length + 1 :=
          upsert_length_absent σ.gsc st' tent hgs
        have hnodup' := upsert_nodup_keys σ.gsc st' tent hB.gsc_nodup
        have hval' : ∀ s v, alookup (upsert σ.gsc st' tent) s = some v →
            s.1 ∈ keysOf t ∧ (s.2 = 0 ∨ s.2 = 90 ∨ s.2 = 180 ∨ s.2 = 270) := by
          intro s v hv
          by_cases hs : s = st'
          · subst hs
            exact hvalid'
          · rw [hother s hs] at hv
            exact hB.valid_st s v hv
        have hbound := gsc_len_bound t (upsert σ.gsc st' tent) hnodup' hval'
        rw [hlen'] at hbound
        have hsum := upsert_sum_absent_toNat σ.gsc st' tent hgs
        have hcame_le : σ.came.length ≤ σ.gsc.length := alist_len_le σ.came σ.gsc
          hB.came_nodup hB.came_sub
        have htN : tent.num.toNat ≤ 4 * t.length := by
          have h1 : (pn.length : ℚ) ≤ (σ.came.length : ℚ) + 1 := by
            rw [hpnl]
            exact htb
          have h2 : pn.length ≤ σ.came.length + 1 := by exact_mod_cast h1
          omega
        have hmul : (4 * t.length + 2) * (4 * t.length - σ.gsc.length)
            = (4 * t.length + 2) * (4 * t.length - (σ.gsc.length + 1))
              + (4 * t.length + 2) := by
          have h1 : 4 * t.length - σ.gsc.length
              = (4 * t.length - (σ.gsc.length + 1)) + 1 := by omega
          rw [h1, Nat.mul_add, Nat.mul_one]
        unfold PhiA
        simp only [hlen', hop, hsum, hmul]
        omega
      · -- existing state improved
        have hlen' : (upsert σ.gsc st' tent).length = σ.gsc.length :=
          upsert_length_mem σ.gsc st' tent (by rw [hgs]; rfl)
        have hsum := upsert_sum_mem_toNat σ.gsc st' tent g hgs
        obtain ⟨pg, hpg, hpgl⟩ := hB.gsc_path st' g hgs
        have hgN : g.num.toNat = pg.length := by
          rw [← hpgl, ratNat_num_toNat]
        have hlt : pn.length < pg.length := by
          have h1 := himp_lt g hgs
          rw [← hpnl, ← hpgl] at h1
          exact_mod_cast h1
        unfold PhiA
        simp only [hlen', hop]
        omega
    -- g-scores only improve pointwise
    · intro s v₀ hv₀
      by_cases hs : s = st'
      · subst hs
        rw [alookup_upsert_self]
        exact ⟨tent, rfl, le_of_lt (himp_lt v₀ hv₀)⟩
      · rw [hother s hs]
        exact ⟨v₀, hv₀, le_refl _⟩
    -- open entries persist
    · intro e he
      exact List.mem_append.mpr (Or.inl he)
    -- the relaxed state's g-score is at most tent
    · rw [alookup_upsert_self]
      exact ⟨tent, rfl, le_refl _⟩
    -- cover transfers
    · intro s hc v hv
      by_cases hs : s = st'
      · subst hs
        rw [alookup_upsert_self] at hv
        simp only [Option.some.injEq] at hv
        subst hv
        exact Or.inl ⟨E, List.mem_append.mpr (Or.inr (List.mem_singleton.mpr rfl)),
          rfl, rfl⟩
      · rw [hother s hs] at hv
        rcases hc v hv with ⟨e, he, hest, heg⟩ | hsucc
        · exact Or.inl ⟨e, List.mem_append.mpr (Or.inl he), hest, heg⟩
        · refine Or.inr ?_
          intro a' s'' hstep''
          obtain ⟨v', hv', hle⟩ := hsucc a' s'' hstep''
          by_cases hs'' : s'' = st'
          · subst hs''
            rw [alookup_upsert_self]
            exact ⟨tent, rfl, le_trans (le_of_lt (himp_lt v' hv')) hle⟩
          · rw [hother s'' hs'']
            exact ⟨v', hv', hle⟩
    -- goal retention transfers
    · intro s hg v hv hgoal
      by_cases hs : s = st'
      · subst hs
        rw [alookup_upsert_self] at hv
        simp only [Option.some.injEq] at hv
        subst hv
        exact ⟨E, List.mem_append.mpr (Or.inr (List.mem_singleton.mpr rfl)),
          rfl, rfl⟩
      · rw [hother s hs] at hv
        obtain ⟨e, he, hest, heg⟩ := hg v hv hgoal
        exact ⟨e, List.mem_append.mpr (Or.inl he), hest, heg⟩

theorem rot_mod_ne (z : ℤ) (hz : z = 0 ∨ z = 90 ∨ z = 180 ∨ z = 270) :
    (z - 90) % 360 ≠ z ∧ (z + 90) % 360 ≠ z := by
  rcases hz with rfl | rfl | rfl | rfl <;> exact ⟨by decide, by decide⟩

/-- One full expansion of a popped non-goal entry preserves the invariant
and strictly decreases the potential. -/
theorem expand_pres (t : Table) (hA : AlignedTable t) (goalK : Key) (start : St)
    (σ : ALoopSt) (m : AEntry) (rest : List AEntry)
    (hInv : AInv t goalK start σ)
    (hpop : popMinE σ.opn = some (m, rest))
    (hng : m.st.1 ≠ goalK) :
    AInv t goalK start
      (expandA t (build_adjacency t) goalK m.st m.g { σ with opn := rest })
    ∧ PhiA t (expandA t (build_adjacency t) goalK m.st m.g { σ with opn := rest })
      < PhiA t σ := by
  obtain ⟨hB, hcov, hgo⟩ := hInv
  have hnn : ∀ e ∈ σ.opn, 0 ≤ e.fb := by
    intro e he
    rw [(hB.open_f e he).2]
    exact heurRad_nonneg t goalK e.st.1
  obtain ⟨hm, hmin, hrest⟩ := popMinE_spec σ.opn m rest hnn hpop
  subst hrest
  obtain ⟨vm, hvm, hvmle⟩ := hB.open_ge m hm
  obtain ⟨pm, hpm, hpml⟩ := hB.open_path m hm
  have hmb := hB.open_gbound m hm
  obtain ⟨hkmem, hyv⟩ := hB.valid_st m.st vm hvm
  have hlenpos : 0 < σ.opn.length := List.length_pos.mpr (List.ne_nil_of_mem hm)
  rcases hms : m.st with ⟨mk, my⟩
  rw [hms] at hvm hpm hkmem hyv hng
  simp only at hkmem hyv hng
  set σp : ALoopSt := { σ with opn := σ.opn.erase m } with hσp
  have hBp : ABase t goalK start σp := by
    refine ⟨?_, ?_, ?_, ?_, hB.gsc_path, hB.gsc_start, hB.gsc_bound,
      hB.gsc_nodup, hB.came_nodup, hB.came_start, hB.came_dom, hB.came_sub,
      hB.came_step, hB.valid_st⟩
    · exact fun e he => hB.open_f e (List.mem_of_mem_erase he)
    · exact fun e he => hB.open_ge e (List.mem_of_mem_erase he)
    · exact fun e he => hB.open_path e (List.mem_of_mem_erase he)
    · exact fun e he => hB.open_gbound e (List.mem_of_mem_erase he)
  have hcov_p : ∀ s, s ≠ (mk, my) → coverAt t σp s := by
    intro s hs v hv
    rcases hcov s v hv with ⟨e, he, hest, heg⟩ | hsucc
    · refine Or.inl ⟨e, ?_, hest, heg⟩
      refine (List.mem_erase_of_ne ?_).mpr he
      intro heq
      subst heq
      rw [hms] at hest
      exact hs hest.symm
    · exact Or.inr hsucc
  have hgo_p : ∀ s, goalOpenAt goalK σp s := by
    intro s v hv hgoal
    obtain ⟨e, he, hest, heg⟩ := hgo s v hv hgoal
    refine ⟨e, (List.mem_erase_of_ne ?_).mpr he, hest, heg⟩
    intro heq
    subst heq
    rw [hms] at hest
    rw [← hest] at hgoal
    exact hng hgoal
  -- the left rotation
  have hstepL : stepSt t (build_adjacency t) (mk, my) .RotateLeft
      = some (mk, (my - 90) % 360) := rfl
  have hstepR : stepSt t (build_adjacency t) (mk, my) .RotateRight
      = some (mk, (my + 90) % 360) := rfl
  have hpathL : ∃ p, execPlan t (build_adjacency t) start p
      = some (mk, (my - 90) % 360) ∧ ((p.length : ℕ) : ℚ) = m.g + 1 := by
    refine ⟨pm ++ [.RotateLeft], ?_, ?_⟩
    · rw [execPlan_snoc, hpm]
      exact hstepL
    · have h1 : (pm ++ [Act.RotateLeft]).length = pm.length + 1 := by simp
      rw [h1]
      push_cast
      rw [hpml]
  have hpathR : ∃ p, execPlan t (build_adjacency t) start p
      = some (mk, (my + 90) % 360) ∧ ((p.length : ℕ) : ℚ) = m.g + 1 := by
    refine ⟨pm ++ [.RotateRight], ?_, ?_⟩
    · rw [execPlan_snoc, hpm]
      exact hstepR
    · have h1 : (pm ++ [Act.RotateRight]).length = pm.length + 1 := by simp
      rw [h1]
      push_cast
      rw [hpml]
  have htbL : m.g + 1 ≤ (σp.came.length : ℚ) + 1 := by
    have : σp.came = σ.came := rfl
    rw [this]
    linarith
  have h1 := relaxA_pres t goalK start (mk, my) (mk, (my - 90) % 360)
    .RotateLeft (m.g + 1) mk σp rfl hBp hstepL hpathL
    ⟨vm, hvm, by linarith⟩ htbL
  set σ₁ := relaxA t goalK (mk, my) (mk, (my - 90) % 360) .RotateLeft
    (m.g + 1) mk σp with hσ₁
  obtain ⟨hB₁, hPhi₁, hmono₁, hcame₁, hopn₁, hrel₁, hunt₁, hcovT₁, hgoT₁⟩ := h1
  have hneL : (mk, my) ≠ (mk, (my - 90) % 360) := by
    intro heq
    have h2 := congrArg Prod.snd heq
    dsimp only at h2
    exact (rot_mod_ne my hyv).1 h2.symm
  have hneR : (mk, my) ≠ (mk, (my + 90) % 360) := by
    intro heq
    have h2 := congrArg Prod.snd heq
    dsimp only at h2
    exact (rot_mod_ne my hyv).2 h2.symm
  have hvm₁ : alookup σ₁.gsc (mk, my) = some vm := by
    rw [hunt₁ (mk, my) hneL]
    exact hvm
  have htbR : m.g + 1 ≤ (σ₁.came.length : ℚ) + 1 := by
    have hc : ((σp.came.length : ℕ) : ℚ) ≤ ((σ₁.came.length : ℕ) : ℚ) := by
      exact_mod_cast hcame₁
    have : σp.came = σ.came := rfl
    rw [this] at hc
    linarith
  have h2 := relaxA_pres t goalK start (mk, my) (mk, (my + 90) % 360)
    .RotateRight (m.g + 1) mk σ₁ rfl hB₁ hstepR hpathR
    ⟨vm, hvm₁, by linarith⟩ htbR
  set σ₂ := relaxA t goalK (mk, my) (mk, (my + 90) % 360) .RotateRight
    (m.g + 1) mk σ₁ with hσ₂
  obtain ⟨hB₂, hPhi₂, hmono₂, hcame₂, hopn₂, hrel₂, hunt₂, hcovT₂, hgoT₂⟩ := h2
  have hvm₂ : alookup σ₂.gsc (mk, my) = some vm := by
    rw [hunt₂ (mk, my) hneR]
    exact hvm₁
  have hPhip : PhiA t σp < PhiA t σ := by
    unfold PhiA
    have h1 : σp.gsc = σ.gsc := rfl
    have h2 : σp.came = σ.came := rfl
    have h3 : σp.opn.length = σ.opn.length - 1 := List.length_erase_of_mem hm
    rw [h1, h3]
    omega
  rcases hd : cardDir my with _ | d
  · exfalso
    rcases hyv with h | h | h | h <;> rw [h] at hd <;> simp [cardDir, STEP] at hd
  · have hdm : d ∈ cardDirList := cardDir_mem my d hd
    obtain ⟨hp, hqx, hqz⟩ := aligned_getPos t hA mk hkmem
    have hq1 : QuarterInt (mk.1 + d.1) :=
      quarterInt_add_dir _ _ hqx (cardDirList_norm d hdm).1
    have hq2 : QuarterInt (mk.2 + d.2) :=
      quarterInt_add_dir _ _ hqz (cardDirList_norm d hdm).2
    have hmk : make_key ((getPos t mk).x + d.1) ((getPos t mk).z + d.2)
        = (mk.1 + d.1, mk.2 + d.2) := by
      rw [hp]
      exact make_key_quarterInt _ _ hq1 hq2
    have hnkk : make_key ((getPos t mk).x + d.1) ((getPos t mk).z + d.2) ≠ mk := by
      rw [hmk]
      intro heq
      have h1 := congrArg Prod.fst heq
      have h2 := congrArg Prod.snd heq
      dsimp only at h1 h2
      have hd1 : d.1 = 0 := by linarith
      have hd2 : d.2 = 0 := by linarith
      simp only [cardDirList, STEP, List.mem_cons, List.not_mem_nil, or_false] at hdm
      rcases hdm with rfl | rfl | rfl | rfl <;> norm_num at hd1 hd2
    have hneM : (mk, my) ≠ (make_key ((getPos t mk).x + d.1) ((getPos t mk).z + d.2), my) := by
      intro heq
      have h1 := congrArg Prod.fst heq
      dsimp only at h1
      exact hnkk h1.symm
    have hstepM : stepSt t (build_adjacency t) (mk, my) .MoveAhead
        = if make_key ((getPos t mk).x + d.1) ((getPos t mk).z + d.2)
              ∈ adjOf (build_adjacency t) mk
          then some (make_key ((getPos t mk).x + d.1) ((getPos t mk).z + d.2), my)
          else none := by
      rw [stepSt, hd]
    have hexp : expandA t (build_adjacency t) goalK (mk, my) m.g σp
        = if make_key ((getPos t mk).x + d.1) ((getPos t mk).z + d.2)
              ∈ adjOf (build_adjacency t) mk
          then relaxA t goalK (mk, my)
              (make_key ((getPos t mk).x + d.1) ((getPos t mk).z + d.2), my)
              .MoveAhead (m.g + 1)
              (make_key ((getPos t mk).x + d.1) ((getPos t mk).z + d.2)) σ₂
          else σ₂ := by
      rw [expandA, hd]
    rw [hexp]
    by_cases hin : make_key ((getPos t mk).x + d.1) ((getPos t mk).z + d.2)
        ∈ adjOf (build_adjacency t) mk
    · -- the forward move is legal: a third relaxation fires
      rw [if_pos hin]
      rw [if_pos hin] at hstepM
      have hpathM : ∃ p, execPlan t (build_adjacency t) start p
          = some (make_key ((getPos t mk).x + d.1) ((getPos t mk).z + d.2), my)
          ∧ ((p.length : ℕ) : ℚ) = m.g + 1 := by
        refine ⟨pm ++ [.MoveAhead], ?_, ?_⟩
        · rw [execPlan_snoc, hpm]
          exact hstepM
        · have h1 : (pm ++ [Act.MoveAhead]).length = pm.length + 1 := by simp
          rw [h1]
          push_cast
          rw [hpml]
      have htbM : m.g + 1 ≤ (σ₂.came.length : ℚ) + 1 := by
        have hc : ((σ₁.came.length : ℕ) : ℚ) ≤ ((σ₂.came.length : ℕ) : ℚ) := by
          exact_mod_cast hcame₂
        have hc' : ((σp.came.length : ℕ) : ℚ) ≤ ((σ₁.came.length : ℕ) : ℚ) := by
          exact_mod_cast hcame₁
        have h0 : σp.came = σ.came := rfl
        rw [h0] at hc'
        linarith
      have h3 := relaxA_pres t goalK start (mk, my)
        (make_key ((getPos t mk).x + d.1) ((getPos t mk).z + d.2), my)
        .MoveAhead (m.g + 1)
        (make_key ((getPos t mk).x + d.1) ((getPos t mk).z + d.2)) σ₂ rfl
        hB₂ hstepM hpathM ⟨vm, hvm₂, by linarith⟩ htbM
      set σ₃ := relaxA t goalK (mk, my)
        (make_key ((getPos t mk).x + d.1) ((getPos t mk).z + d.2), my)
        .MoveAhead (m.g + 1)
        (make_key ((getPos t mk).x + d.1) ((getPos t mk).z + d.2)) σ₂ with hσ₃
      obtain ⟨hB₃, hPhi₃, hmono₃, hcame₃, hopn₃, hrel₃, hunt₃, hcovT₃, hgoT₃⟩ := h3
      refine ⟨⟨hB₃, ?_, fun s => hgoT₃ s (hgoT₂ s (hgoT₁ s (hgo_p s)))⟩, by omega⟩
      intro s
      by_cases hs : s = (mk, my)
      · subst hs
        by_cases hstale : vm = m.g
        · -- the popped entry was exact: every successor is now relaxed
          intro v hv
          have hv' : alookup σ₂.gsc (mk, my) = some v := by
            rw [← hunt₃ (mk, my) hneM]
            exact hv
          rw [hvm₂] at hv'
          simp only [Option.some.injEq] at hv'
          subst hv'
          refine Or.inr ?_
          intro a s' hstep'
          rcases stepSt_actKind t (build_adjacency t) (mk, my) s' a hstep'
            with rfl | rfl | rfl
          · -- MoveAhead
            rw [hstepM] at hstep'
            simp only [Option.some.injEq] at hstep'
            subst hstep'
            obtain ⟨v₃, hv₃, hle₃⟩ := hrel₃
            exact ⟨v₃, hv₃, by rw [hstale]; linarith⟩
          · -- RotateLeft
            rw [hstepL] at hstep'
            simp only [Option.some.injEq] at hstep'
            subst hstep'
            obtain ⟨v₁, hv₁, hle₁⟩ := hrel₁
            obtain ⟨v₂, hv₂, hle₂⟩ := hmono₂ _ v₁ hv₁
            obtain ⟨v₃, hv₃, hle₃⟩ := hmono₃ _ v₂ hv₂
            exact ⟨v₃, hv₃, by rw [hstale]; linarith⟩
          · -- RotateRight
            rw [hstepR] at hstep'
            simp only [Option.some.injEq] at hstep'
            subst hstep'
            obtain ⟨v₂, hv₂, hle₂⟩ := hrel₂
            obtain ⟨v₃, hv₃, hle₃⟩ := hmono₃ _ v₂ hv₂
            exact ⟨v₃, hv₃, by rw [hstale]; linarith⟩
        · -- the popped entry was stale: another exact entry is still open
          refine hcovT₃ _ (hcovT₂ _ (hcovT₁ _ ?_))
          intro v hv
          have hveq : v = vm := by
            have : alookup σ.gsc (mk, my) = some v := hv
            rw [hvm] at this
            simp only [Option.some.injEq] at this
            exact this.symm
          subst hveq
          rcases hcov (mk, my) v (by exact hv) with ⟨e, he, hest, heg⟩ | hsucc
          · refine Or.inl ⟨e, ?_, hest, heg⟩
            refine (List.mem_erase_of_ne ?_).mpr he
            intro heq
            subst heq
            exact hstale (by rw [← heg])
          · exact Or.inr hsucc
      · exact hcovT₃ s (hcovT₂ s (hcovT₁ s (hcov_p s hs)))
    · -- the forward move is blocked: only the two rotations fired
      rw [if_neg hin]
      rw [if_neg hin] at hstepM
      refine ⟨⟨hB₂, ?_, fun s => hgoT₂ s (hgoT₁ s (hgo_p s))⟩, by omega⟩
      intro s
      by_cases hs : s = (mk, my)
      · subst hs
        by_cases hstale : vm = m.g
        · intro v hv
          have hv' : alookup σ₁.gsc (mk, my) = some v := by
            rw [← hunt₂ (mk, my) hneR]
            exact hv
          rw [hvm₁] at hv'
          simp only [Option.some.injEq] at hv'
          subst hv'
          refine Or.inr ?_
          intro a s' hstep'
          rcases stepSt_actKind t (build_adjacency t) (mk, my) s' a hstep'
            with rfl | rfl | rfl
          · rw [hstepM] at hstep'
            exact Option.noConfusion hstep'
          · rw [hstepL] at hstep'
            simp only [Option.some.injEq] at hstep'
            subst hstep'
            obtain ⟨v₁, hv₁, hle₁⟩ := hrel₁
            obtain ⟨v₂, hv₂, hle₂⟩ := hmono₂ _ v₁ hv₁
            exact ⟨v₂, hv₂, by rw [hstale]; linarith⟩
          · rw [hstepR] at hstep'
            simp only [Option.some.injEq] at hstep'
            subst hstep'
            obtain ⟨v₂, hv₂, hle₂⟩ := hrel₂
            exact ⟨v₂, hv₂, by rw [hstale]; linarith⟩
        · refine hcovT₂ _ (hcovT₁ _ ?_)
          intro v hv
          have hveq : v = vm := by
            have : alookup σ.gsc (mk, my) = some v := hv
            rw [hvm] at this
            simp only [Option.some.injEq] at this
            exact this.symm
          subst hveq
          rcases hcov (mk, my) v (by exact hv) with ⟨e, he, hest, heg⟩ | hsucc
          · refine Or.inl ⟨e, ?_, hest, heg⟩
            refine (List.mem_erase_of_ne ?_).mpr he
            intro heq
            subst heq
            exact hstale (by rw [← heg])
          · exact Or.inr hsucc
      · exact hcovT₂ s (hcovT₁ s (hcov_p s hs))

/-- As long as a plan to the goal exists, the open list holds an entry
whose real priority is at most the g-score of the plan's origin plus the
plan's length. -/
theorem good_entry (t : Table) (hA : AlignedTable t) (goalK : Key) (start : St)
    (σ : ALoopSt) (hInv : AInv t goalK start σ) :
    ∀ (suffix : List Act) (s : St) (v : ℚ) (yg : ℤ),
      alookup σ.gsc s = some v →
      execPlan t (build_adjacency t) s suffix = some (goalK, yg) →
      ∃ e ∈ σ.opn, (e.fa : ℝ) + Real.sqrt e.fb ≤ (v : ℝ) + (suffix.length : ℝ) := by
  obtain ⟨hB, hcov, hgo⟩ := hInv
  intro suffix
  induction suffix with
  | nil =>
    intro s v yg hv hexec
    rw [execPlan] at hexec
    simp only [Option.some.injEq] at hexec
    subst hexec
    obtain ⟨e, he, hest, heg⟩ := hgo (goalK, yg) v hv rfl
    refine ⟨e, he, ?_⟩
    obtain ⟨hfa, hfb⟩ := hB.open_f e he
    rw [hfa, hfb, hest, heg]
    simp [heurRad_self, Real.sqrt_zero]
  | cons a rest' ih =>
    intro s v yg hv hexec
    by_cases hg : s.1 = goalK
    · obtain ⟨e, he, hest, heg⟩ := hgo s v hv hg
      refine ⟨e, he, ?_⟩
      obtain ⟨hfa, hfb⟩ := hB.open_f e he
      rw [hfa, hfb, hest, heg, hg]
      simp only [heurRad_self]
      have hlen : (0:ℝ) ≤ ((a :: rest').length : ℝ) := by positivity
      simp only [Rat.cast_zero, Real.sqrt_zero]
      linarith
    · rcases hcov s v hv with ⟨e, he, hest, heg⟩ | hsucc
      · refine ⟨e, he, ?_⟩
        obtain ⟨hfa, hfb⟩ := hB.open_f e he
        rw [hfa, hfb, hest, heg]
        have hadm := heur_admissible t hA goalK (a :: rest') s yg
          (hB.valid_st s v hv).1 hexec
        linarith
      · rw [execPlan] at hexec
        rcases hstep : stepSt t (build_adjacency t) s a with _ | s₁
        · rw [hstep] at hexec
          simp at hexec
        · rw [hstep] at hexec
          obtain ⟨v₁, hv₁, hle₁⟩ := hsucc a s₁ hstep
          obtain ⟨e, he, hbound⟩ := ih s₁ v₁ yg hv₁ hexec
          refine ⟨e, he, ?_⟩
          have hc1 : ((v₁ : ℚ) : ℝ) ≤ ((v : ℚ) : ℝ) + 1 := by exact_mod_cast hle₁
          have hc2 : ((a :: rest').length : ℝ) = (rest'.length : ℝ) + 1 := by
            push_cast [List.length_cons]
            ring
          rw [hc2]
          linarith

/-- Walking the `came_from` chain from a discovered state yields a genuine
plan from the start whose length is bounded by the state's g-score. -/
theorem reconstructA_spec (t : Table) (goalK : Key) (start : St) (σ : ALoopSt)
    (hB : ABase t goalK start σ) :
    ∀ (N : ℕ) (s : St) (v : ℚ) (nv : ℕ) (acc : List Act),
      alookup σ.gsc s = some v → ((nv : ℕ) : ℚ) = v → nv < N →
      ∃ pfx, reconstructA σ.came N s acc = pfx ++ acc
        ∧ execPlan t (build_adjacency t) start pfx = some s
        ∧ pfx.length ≤ nv := by
  intro N
  induction N with
  | zero =>
    intro s v nv acc hv hnv h
    omega
  | succ N ih =>
    intro s v nv acc hv hnv hlt
    rcases hc : alookup σ.came s with _ | pa
    · have hs : s = start := by
        by_contra hne
        have hdom := hB.came_dom s hne (by rw [hv]; rfl)
        rw [hc] at hdom
        simp at hdom
      subst hs
      refine ⟨[], ?_, by rw [execPlan], by simp⟩
      rw [reconstructA, hc]
      simp
    · obtain ⟨pr, a⟩ := pa
      obtain ⟨hstep₀, vp, vs, hvp, hvs, hps⟩ := hB.came_step s pr a hc
      rw [hv] at hvs
      simp only [Option.some.injEq] at hvs
      subst hvs
      obtain ⟨pp, hpp, hppl⟩ := hB.gsc_path pr vp hvp
      have h2 : pp.length + 1 ≤ nv := by
        have h1 : ((pp.length : ℕ) : ℚ) + 1 ≤ ((nv : ℕ) : ℚ) := by
          rw [hppl, hnv]
          exact hps
        exact_mod_cast h1
      have hlt' : pp.length < N := by omega
      obtain ⟨pfx', heq', hexec', hlen'⟩ := ih pr vp pp.length (a :: acc) hvp hppl hlt'
      refine ⟨pfx' ++ [a], ?_, ?_, ?_⟩
      · rw [reconstructA, hc]
        show reconstructA σ.came N pr (a :: acc) = (pfx' ++ [a]) ++ acc
        rw [heq']
        simp
      · rw [execPlan_snoc, hexec']
        exact hstep₀
      · simp only [List.length_append, List.length_singleton]
        omega

/-- The invariant holds of the initial search state built by
`astar_actions` (for distinct start and goal keys). -/
theorem AInv_init (t : Table) (startK goalK : Key) (y₀ : ℤ)
    (hs : startK ∈ keysOf t) (hy : y₀ = 0 ∨ y₀ = 90 ∨ y₀ = 180 ∨ y₀ = 270)
    (hne : startK ≠ goalK) :
    AInv t goalK (startK, y₀)
      ⟨[⟨0, heurRad t goalK startK, 0, 0, (startK, y₀)⟩], [],
        [((startK, y₀), 0)], 1⟩ := by
  have hlook : ∀ (s : St) (v : ℚ),
      alookup [((startK, y₀), (0:ℚ))] s = some v → s = (startK, y₀) ∧ v = 0 := by
    intro s v hv
    rw [alookup] at hv
    split_ifs at hv with h
    · simp only [Option.some.injEq] at hv
      exact ⟨h.symm, hv.symm⟩
    · simp [alookup] at hv
  have hself : alookup [((startK, y₀), (0:ℚ))] (startK, y₀) = some 0 := by
    rw [alookup, if_pos rfl]
  refine ⟨⟨?_, ?_, ?_, ?_, ?_, hself, ?_, by simp, by simp, rfl, ?_, ?_, ?_, ?_⟩,
    ?_, ?_⟩
  · intro e he
    rw [List.mem_singleton] at he
    subst he
    exact ⟨rfl, rfl⟩
  · intro e he
    rw [List.mem_singleton] at he
    subst he
    exact ⟨0, hself, le_refl _⟩
  · intro e he
    rw [List.mem_singleton] at he
    subst he
    exact ⟨[], by rw [execPlan], by norm_num⟩
  · intro e he
    rw [List.mem_singleton] at he
    subst he
    norm_num
  · intro s v hv
    obtain ⟨rfl, rfl⟩ := hlook s v hv
    exact ⟨[], by rw [execPlan], by norm_num⟩
  · intro s v hv
    obtain ⟨rfl, rfl⟩ := hlook s v hv
    norm_num
  · intro s hsne hsome
    rcases hv : alookup [((startK, y₀), (0:ℚ))] s with _ | v
    · rw [hv] at hsome
      simp at hsome
    · obtain ⟨rfl, rfl⟩ := hlook s v hv
      exact absurd rfl hsne
  · intro s hsome
    simp [alookup] at hsome
  · intro s pr a hl
    simp [alookup] at hl
  · intro s v hv
    obtain ⟨rfl, rfl⟩ := hlook s v hv
    exact ⟨hs, hy⟩
  · intro s v hv
    obtain ⟨rfl, rfl⟩ := hlook s v hv
    exact Or.inl ⟨_, List.mem_singleton.mpr rfl, rfl, rfl⟩
  · intro s v hv hgoal
    obtain ⟨rfl, rfl⟩ := hlook s v hv
    exact absurd hgoal hne

/-- The fuel budget of `astar_actions` exceeds the initial potential. -/
theorem astarFuel_init (t : Table) (startK goalK : Key) (y₀ : ℤ) :
    PhiA t ⟨[⟨0, heurRad t goalK startK, 0, 0, (startK, y₀)⟩], [],
      [((startK, y₀), 0)], 1⟩ < astarFuel t (build_adjacency t) := by
  unfold PhiA astarFuel
  simp only [List.length_singleton, List.length_nil, List.map_cons,
    List.map_nil, List.sum_cons, List.sum_nil]
  have hz : ((0:ℚ)).num.toNat = 0 := rfl
  rw [hz]
  generalize ((build_adjacency t).map fun r => r.2.length).sum = S
  generalize t.length = T
  have h1 : (4*T+2) * (4*T-1) ≤ (4*T+2) * (4*T) :=
    Nat.mul_le_mul_left _ (by omega)
  have h2 : (4*T+2) * (4*T) ≤ (4*(1+S+T)+2) * (4*(1+S+T)) :=
    Nat.mul_le_mul (by omega) (by omega)
  omega

/-- The A* loop, run with enough fuel from an invariant state, returns a
plan that reaches the goal and is no longer than any plan to the goal. -/
theorem aloop_correct (t : Table) (hA : AlignedTable t) (goalK : Key) (start : St) :
    ∀ (fuel : ℕ) (σ : ALoopSt), AInv t goalK start σ → PhiA t σ < fuel →
      ∀ (π : List Act) (yπ : ℤ),
        execPlan t (build_adjacency t) start π = some (goalK, yπ) →
        ∃ plan, aloopA t (build_adjacency t) goalK fuel σ = .ok plan
          ∧ (∃ yf, execPlan t (build_adjacency t) start plan = some (goalK, yf))
          ∧ ∀ (q : List Act) (yq : ℤ),
              execPlan t (build_adjacency t) start q = some (goalK, yq) →
              plan.length ≤ q.length := by
  intro fuel
  induction fuel with
  | zero =>
    intro σ hInv hPhi π yπ hπ
    omega
  | succ fuel ih =>
    intro σ hInv hPhi π yπ hπ
    obtain ⟨hB, hcov, hgo⟩ := hInv
    obtain ⟨e₀, he₀, hf₀⟩ := good_entry t hA goalK start σ ⟨hB, hcov, hgo⟩
      π start 0 yπ hB.gsc_start hπ
    rcases hop : σ.opn with _ | ⟨b, tl⟩
    · rw [hop] at he₀
      simp at he₀
    · set m := selMinE b tl with hm_def
      have hpop : popMinE σ.opn = some (m, σ.opn.erase m) := by
        rw [hop, popMinE]
      have hnn : ∀ e ∈ σ.opn, 0 ≤ e.fb := by
        intro e he
        rw [(hB.open_f e he).2]
        exact heurRad_nonneg t goalK e.st.1
      obtain ⟨hm_mem, hmin, -⟩ := popMinE_spec σ.opn m _ hnn hpop
      have hstep_eq : aloopA t (build_adjacency t) goalK (fuel+1) σ
          = if m.st.1 = goalK
            then .ok (reconstructA σ.came (σ.came.length + 1) m.st [])
            else aloopA t (build_adjacency t) goalK fuel
              (expandA t (build_adjacency t) goalK m.st m.g
                { σ with opn := σ.opn.erase m }) := by
        rw [aloopA, hpop]
      by_cases hgoal : m.st.1 = goalK
      · rw [hstep_eq, if_pos hgoal]
        obtain ⟨vm, hvm, hvmle⟩ := hB.open_ge m hm_mem
        obtain ⟨pv, hpv, hpvl⟩ := hB.gsc_path m.st vm hvm
        have hbound := hB.gsc_bound m.st vm hvm
        have hnvlt : pv.length < σ.came.length + 1 := by
          have h1 : ((pv.length : ℕ) : ℚ) ≤ ((σ.came.length : ℕ) : ℚ) := by
            rw [hpvl]
            exact hbound
          have h2 : pv.length ≤ σ.came.length := by exact_mod_cast h1
          omega
        obtain ⟨pfx, heqr, hexecr, hlenr⟩ := reconstructA_spec t goalK start σ hB
          (σ.came.length + 1) m.st vm pv.length [] hvm hpvl hnvlt
        rw [List.append_nil] at heqr
        refine ⟨reconstructA σ.came (σ.came.length + 1) m.st [], rfl, ?_, ?_⟩
        · refine ⟨m.st.2, ?_⟩
          rw [heqr, hexecr]
          congr 1
          exact Prod.ext hgoal rfl
        · intro q yq hq
          obtain ⟨eq', heq', hfq⟩ := good_entry t hA goalK start σ ⟨hB, hcov, hgo⟩
            q start 0 yq hB.gsc_start hq
          have hmle := hmin eq' heq'
          have hfm : (m.fa : ℝ) + Real.sqrt m.fb
              ≤ (eq'.fa : ℝ) + Real.sqrt eq'.fb := by
            rcases lt_trichotomy ((eq'.fa : ℝ) + Real.sqrt eq'.fb)
              ((m.fa : ℝ) + Real.sqrt m.fb) with h | h | h
            · exact absurd (Or.inl h) hmle
            · linarith [le_of_eq h]
            · linarith
          have hfgoal : (m.fa : ℝ) + Real.sqrt m.fb = ((m.g : ℚ) : ℝ) := by
            obtain ⟨hfa, hfb⟩ := hB.open_f m hm_mem
            rw [hfa, hfb, hgoal, heurRad_self]
            simp [Real.sqrt_zero]
          have hq0 : ((0:ℚ):ℝ) + ((q.length : ℕ) : ℝ) = (q.length : ℝ) := by
            simp
          rw [hfgoal] at hfm
          rw [hq0] at hfq
          have hmgq : ((m.g : ℚ) : ℝ) ≤ ((q.length : ℕ) : ℝ) := le_trans hfm hfq
          have hvq : ((vm : ℚ) : ℝ) ≤ ((q.length : ℕ) : ℝ) := by
            have : ((vm : ℚ) : ℝ) ≤ ((m.g : ℚ) : ℝ) := by exact_mod_cast hvmle
            linarith
          have hpq : ((pv.length : ℕ) : ℝ) ≤ ((q.length : ℕ) : ℝ) := by
            rw [show ((pv.length : ℕ) : ℝ) = (((pv.length : ℕ) : ℚ) : ℝ) by push_cast; ring,
              hpvl]
            exact hvq
          have hpq' : pv.length ≤ q.length := by exact_mod_cast hpq
          rw [heqr]
          omega
      · rw [hstep_eq, if_neg hgoal]
        have hEP := expand_pres t hA goalK start σ m _ ⟨hB, hcov, hgo⟩ hpop hgoal
        exact ih _ hEP.1 (by omega) π yπ hπ

/-- C1: on a grid-aligned node table (every stored position equals its
quantized key, coordinates are multiples of the 0.25 grid step, keys
distinct — the shape `build_node_lookup` produces from the simulator's
reachable-position grid), for a start key in the table, a cardinal start
heading and a goal key reachable by some action sequence, `astar_actions`
returns a plan over `{MoveAhead, RotateLeft, RotateRight}` that, executed
from the start position and heading under the built adjacency, ends at
the goal key with the final heading unconstrained, and no strictly
shorter such sequence exists; when the start key equals the goal key the
returned plan is empty. -/
theorem astar_actions_optimal (t : Table) (hA : AlignedTable t)
    (startK goalK : Key) (y₀ : ℤ)
    (hy : y₀ = 0 ∨ y₀ = 90 ∨ y₀ = 180 ∨ y₀ = 270)
    (hs : startK ∈ keysOf t)
    (hreach : ∃ (π : List Act) (yπ : ℤ),
      execPlan t (build_adjacency t) (startK, y₀) π = some (goalK, yπ)) :
    ∃ plan, astar_actions t (build_adjacency t) startK y₀ goalK = .ok plan
      ∧ (∀ a ∈ plan, a = .MoveAhead ∨ a = .RotateLeft ∨ a = .RotateRight)
      ∧ (∃ yf, execPlan t (build_adjacency t) (startK, y₀) plan = some (goalK, yf))
      ∧ (∀ (q : List Act) (yq : ℤ),
          execPlan t (build_adjacency t) (startK, y₀) q = some (goalK, yq) →
          plan.length ≤ q.length)
      ∧ (startK = goalK → plan = []) := by
  by_cases heq : startK = goalK
  · subst heq
    refine ⟨[], ?_, by simp, ⟨y₀, by rw [execPlan]⟩, fun q yq hq => by simp,
      fun _ => rfl⟩
    rw [astar_actions, if_pos rfl]
  · obtain ⟨π, yπ, hπ⟩ := hreach
    have hinit := AInv_init t startK goalK y₀ hs hy heq
    have hfuel := astarFuel_init t startK goalK y₀
    obtain ⟨plan, hrun, hreach', hopt⟩ := aloop_correct t hA goalK (startK, y₀)
      (astarFuel t (build_adjacency t)) _ hinit hfuel π yπ hπ
    refine ⟨plan, ?_, ?_, hreach', hopt, fun h => absurd h heq⟩
    · rw [astar_actions, if_neg heq]
      exact hrun
    · obtain ⟨yf, hpf⟩ := hreach'
      exact execPlan_actKinds t (build_adjacency t) plan _ _ hpf

/-- Witness for C1 on the two-node straight corridor: from `(0,0)` facing
north, the goal `(0, 0.25)` is reachable, and the theorem's conclusion is
obtained by applying it with every hypothesis discharged on this concrete
table. -/
theorem astar_actions_optimal_witness :
    ∃ plan, astar_actions tStraight (build_adjacency tStraight)
        (0, 0) 0 (0, 1/4) = .ok plan
      ∧ (∀ a ∈ plan, a = Act.MoveAhead ∨ a = Act.RotateLeft ∨ a = Act.RotateRight)
      ∧ (∃ yf, execPlan tStraight (build_adjacency tStraight) ((0, 0), 0) plan
          = some ((0, 1/4), yf))
      ∧ (∀ (q : List Act) (yq : ℤ),
          execPlan tStraight (build_adjacency tStraight) ((0, 0), 0) q
            = some ((0, 1/4), yq) →
          plan.length ≤ q.length)
      ∧ (((0 : ℚ), (0 : ℚ)) = ((0 : ℚ), (1/4 : ℚ)) → plan = []) :=
  astar_actions_optimal tStraight (by with_unfolding_all decide)
    (0, 0) (0, 1/4) 0 (Or.inl rfl) (by with_unfolding_all decide)
    ⟨[Act.MoveAhead], 0, by with_unfolding_all decide⟩

/-- C2 (refuted — code bug in `_pruned_directions`): on the aligned table
`tStride` the goal `(1,0)` is reachable from `(0,0)` (the 12-action A*
plan below executes to it), and both planners return plans, yet the JPS
plan has 4 `MoveAhead`s against A*'s 8.  Worse, the JPS plan is not
executable at all: `_pruned_directions` derives the direction from the
raw parent offset (`round(diff/step)` = 2 for a jump point two cells
away), so the subsequent `_jump` strides two cells at a time, checks
walkability only at every second cell, and jumps over the hole at
`(0.75, 0)` onto the goal; `_path_to_actions` then emits single-cell
`MoveAhead`s straight through the hole, and execution aborts there. -/
theorem jps_astar_move_mismatch :
    AlignedTable tStride
    ∧ jps_actions tStride (0, 0) 0 (1, 0)
      = .ok [.RotateRight, .MoveAhead, .MoveAhead, .MoveAhead, .MoveAhead]
    ∧ astar_actions tStride (build_adjacency tStride) (0, 0) 0 (1, 0)
      = .ok [.MoveAhead, .MoveAhead, .RotateRight, .MoveAhead, .MoveAhead,
          .MoveAhead, .RotateRight, .MoveAhead, .RotateLeft, .MoveAhead,
          .RotateRight, .MoveAhead]
    ∧ moveCount [Act.RotateRight, .MoveAhead, .MoveAhead, .MoveAhead, .MoveAhead]
      = 4
    ∧ moveCount [Act.MoveAhead, .MoveAhead, .RotateRight, .MoveAhead, .MoveAhead,
          .MoveAhead, .RotateRight, .MoveAhead, .RotateLeft, .MoveAhead,
          .RotateRight, .MoveAhead] = 8
    ∧ execPlan tStride (build_adjacency tStride) ((0, 0), 0)
        [Act.MoveAhead, .MoveAhead, .RotateRight, .MoveAhead, .MoveAhead,
          .MoveAhead, .RotateRight, .MoveAhead, .RotateLeft, .MoveAhead,
          .RotateRight, .MoveAhead] = some ((1, 0), 180)
    ∧ execPlan tStride (build_adjacency tStride) ((0, 0), 0)
        [Act.RotateRight, .MoveAhead, .MoveAhead, .MoveAhead, .MoveAhead] = none
    ∧ ((3/4 : ℚ), (0 : ℚ)) ∉ keysOf tStride := by
  refine ⟨?_, ?_, ?_, ?_, ?_, ?_, ?_, ?_⟩ <;> with_unfolding_all decide

end Sentinel
